import Mathlib

/-!
Verification of the core of the Bitcoin Script hex/ASM editor
(`src/App.jsx` plus the express job server) against its natural-language
specification.

Modelling conventions:
* JavaScript strings are modelled as lists of characters (`Str`);
* byte sequences (`Uint8Array`, plain arrays of bytes) are `List Nat`
  whose entries are below 256 wherever the source guarantees it;
* JavaScript numbers used as byte offsets are modelled as rationals,
  because `(term.length - 2) / 2` performs exact (floating point)
  division in the source;
* fallible conversions return `Except String` carrying the exact
  `throw new Error(...)` message of the source.
-/

abbrev Str := List Char

abbrev Bytes := List Nat

/-- Character class of the JavaScript regular expression `\s` (also the
set trimmed by `String.prototype.trim`): tab, LF, VT, FF, CR, space,
NBSP, and the Unicode space separators used by ECMAScript. -/
def isWs (c : Char) : Bool :=
  c.toNat = 9 || c.toNat = 10 || c.toNat = 11 || c.toNat = 12 || c.toNat = 13 ||
  c.toNat = 32 || c.toNat = 0xa0 || c.toNat = 0x1680 ||
  (0x2000 ≤ c.toNat && c.toNat ≤ 0x200a) ||
  c.toNat = 0x2028 || c.toNat = 0x2029 || c.toNat = 0x202f ||
  c.toNat = 0x205f || c.toNat = 0x3000 || c.toNat = 0xfeff

/-- ASCII lowercasing of one character, as `String.prototype.toLowerCase`
acts on the characters appearing in hex strings. -/
def jsToLower (c : Char) : Char :=
  if h : 65 ≤ c.toNat ∧ c.toNat ≤ 90 then
    ⟨c.val + 32, by
      have h90 : c.val.toNat ≤ 90 := h.2
      have h2 : (32 : UInt32).toNat = 32 := rfl
      have hsz : UInt32.size = 4294967296 := rfl
      have h32 : (c.val + 32).toNat = c.val.toNat + 32 := by
        rw [UInt32.toNat_add, h2, hsz]
        exact Nat.mod_eq_of_lt (by omega)
      refine Or.inl ?_
      rw [h32]
      omega⟩
  else c

/-- `s.trim()`: remove leading and trailing JavaScript whitespace. -/
def trimStr (l : Str) : Str :=
  (((l.dropWhile isWs).reverse.dropWhile isWs)).reverse

/-- Fuel-indexed worker for `tokens`; the fuel only serves to make the
recursion structural and is always at least the length of the string,
so the fuel-exhausted case is unreachable. -/
def tokensF : Nat → Str → List Str
  | _, [] => []
  | 0, _ :: _ => []
  | f + 1, c :: cs =>
    if isWs c then tokensF f cs
    else (c :: cs.takeWhile (fun d => !(isWs d))) ::
      tokensF f (cs.dropWhile (fun d => !(isWs d)))

/-- Maximal runs of non-whitespace characters, in order.  This is the
token list produced by the source's splitting idioms
(`.trim().replace(/\s+/g, " ").split(" ").filter(Boolean)` and
`.trim().split(/\s+/g)` on inputs with at least one token, and
`.split(/\s+/g)` per line with empty fragments skipped). -/
def tokens (l : Str) : List Str :=
  tokensF l.length l

/-- Split on `'\n'`, keeping empty lines, as `s.split("\n")` does. -/
def splitNl : Str → List Str
  | [] => [[]]
  | c :: cs =>
    if c = '\n' then [] :: splitNl cs
    else
      match splitNl cs with
      | [] => [[c]]
      | t :: ts => (c :: t) :: ts

/-- A hexadecimal digit, as tested by the source's `/^[0-9a-fA-F]*$/`. -/
def isHexDigit (c : Char) : Bool :=
  (48 ≤ c.toNat && c.toNat ≤ 57) ||
  (97 ≤ c.toNat && c.toNat ≤ 102) ||
  (65 ≤ c.toNat && c.toNat ≤ 70)

/-- `isHex`: every character is a hexadecimal digit (empty allowed). -/
def isHexStr (l : Str) : Bool := l.all isHexDigit

/-- Numeric value of a hex digit (`parseInt(-, 16)` per digit). -/
def hexDigitVal (c : Char) : Nat :=
  if 48 ≤ c.toNat ∧ c.toNat ≤ 57 then c.toNat - 48
  else if 97 ≤ c.toNat ∧ c.toNat ≤ 102 then c.toNat - 87
  else if 65 ≤ c.toNat ∧ c.toNat ≤ 70 then c.toNat - 55
  else 0

/-- Lowercase hex digit character of a value below 16
(`b.toString(16)` digits). -/
def hexChar (n : Nat) : Char :=
  if n < 10 then Char.ofNat (48 + n) else Char.ofNat (87 + n)

/-- `cleanHex`: `s.replace(/\s+/g, "").toLowerCase()`. -/
def cleanHex (l : Str) : Str :=
  (l.filter (fun c => !(isWs c))).map jsToLower

/-- Decode an even-length hex string two digits at a time
(the loop body of `hexToBytes`; the singleton case is unreachable
because the caller has checked the length is even). -/
def hexPairs : Str → Bytes
  | [] => []
  | [_] => []
  | a :: b :: r => (16 * hexDigitVal a + hexDigitVal b) :: hexPairs r

/-- `hexToBytes`: clean, validate and decode a hex string.  The source's
final `Number.isNaN` check can never fire after `isHex` passed and is
omitted. -/
def hexToBytes (l : Str) : Except String Bytes :=
  let h := cleanHex l
  if !(isHexStr h) then .error "Invalid hex format"
  else if h.length % 2 ≠ 0 then .error "Invalid hex: odd length"
  else .ok (hexPairs h)

/-- `bytesToHex`: each byte as two lowercase hex digits (entries come
from `Uint8Array`s, hence are below 256). -/
def bytesToHexStr (bs : Bytes) : Str :=
  bs.flatMap (fun b => [hexChar (b / 16), hexChar (b % 16)])

/-- `pushPrefix(len)`: minimal push-prefix encoding chosen by length.
`len & 0xff`, `(len >>> 8) & 0xff`, ... are `len / 2 ^ k % 256` (the
JavaScript `>>>` coerces through `ToUint32`, which agrees with these
expressions on every natural number). -/
def pushPrefix (len : Nat) : Bytes :=
  if len ≤ 75 then [len]
  else if len ≤ 0xff then [0x4c, len]
  else if len ≤ 0xffff then [0x4d, len % 256, len / 256 % 256]
  else [0x4e, len % 256, len / 256 % 256, len / 65536 % 256, len / 16777216 % 256]

/-- The assembler's `pushData`: minimal prefix followed by the payload. -/
def pushData (data : Bytes) : Bytes :=
  pushPrefix data.length ++ data

/-- The opcode table `OPC`, as an association list in declaration order
(object literals preserve declaration order for these keys). -/
def opcTable : List (String × Nat) :=
  [("OP_0", 0x00), ("OP_FALSE", 0x00), ("OP_TRUE", 0x51),
   ("OP_PUSHDATA1", 0x4c), ("OP_PUSHDATA2", 0x4d), ("OP_PUSHDATA4", 0x4e),
   ("OP_1NEGATE", 0x4f), ("OP_RESERVED", 0x50),
   ("OP_1", 0x51), ("OP_2", 0x52), ("OP_3", 0x53), ("OP_4", 0x54),
   ("OP_5", 0x55), ("OP_6", 0x56), ("OP_7", 0x57), ("OP_8", 0x58),
   ("OP_9", 0x59), ("OP_10", 0x5a), ("OP_11", 0x5b), ("OP_12", 0x5c),
   ("OP_13", 0x5d), ("OP_14", 0x5e), ("OP_15", 0x5f), ("OP_16", 0x60),
   ("OP_NOP", 0x61), ("OP_IF", 0x63), ("OP_NOTIF", 0x64),
   ("OP_ELSE", 0x67), ("OP_ENDIF", 0x68), ("OP_VERIFY", 0x69),
   ("OP_RETURN", 0x6a), ("OP_TOALTSTACK", 0x6b), ("OP_FROMALTSTACK", 0x6c),
   ("OP_IFDUP", 0x73), ("OP_DEPTH", 0x74), ("OP_DROP", 0x75),
   ("OP_DUP", 0x76), ("OP_NIP", 0x77), ("OP_OVER", 0x78),
   ("OP_PICK", 0x79), ("OP_ROLL", 0x7a), ("OP_ROT", 0x7b),
   ("OP_SWAP", 0x7c), ("OP_TUCK", 0x7d),
   ("OP_EQUAL", 0x87), ("OP_EQUALVERIFY", 0x88),
   ("OP_1ADD", 0x8b), ("OP_1SUB", 0x8c), ("OP_NEGATE", 0x8f),
   ("OP_ABS", 0x90), ("OP_NOT", 0x91), ("OP_0NOTEQUAL", 0x92),
   ("OP_ADD", 0x93), ("OP_SUB", 0x94), ("OP_BOOLAND", 0x9a),
   ("OP_BOOLOR", 0x9b), ("OP_NUMEQUAL", 0x9c), ("OP_NUMEQUALVERIFY", 0x9d),
   ("OP_NUMNOTEQUAL", 0x9e), ("OP_LESSTHAN", 0x9f), ("OP_GREATERTHAN", 0xa0),
   ("OP_LESSTHANOREQUAL", 0xa1), ("OP_GREATERTHANOREQUAL", 0xa2),
   ("OP_MIN", 0xa3), ("OP_MAX", 0xa4), ("OP_WITHIN", 0xa5),
   ("OP_RIPEMD160", 0xa6), ("OP_SHA1", 0xa7), ("OP_SHA256", 0xa8),
   ("OP_HASH160", 0xa9), ("OP_HASH256", 0xaa), ("OP_CODESEPARATOR", 0xab),
   ("OP_CHECKSIG", 0xac), ("OP_CHECKSIGVERIFY", 0xad),
   ("OP_CHECKMULTISIG", 0xae), ("OP_CHECKMULTISIGVERIFY", 0xaf),
   ("OP_NOP1", 0xb0), ("OP_CHECKLOCKTIMEVERIFY", 0xb1),
   ("OP_CHECKSEQUENCEVERIFY", 0xb2), ("OP_NOP4", 0xb3), ("OP_NOP5", 0xb4),
   ("OP_NOP6", 0xb5), ("OP_NOP7", 0xb6), ("OP_NOP8", 0xb7),
   ("OP_NOP9", 0xb8), ("OP_NOP10", 0xb9)]

/-- `OPC[t]`: name-to-byte lookup (keys of the object are unique). -/
def lookupOPC (t : Str) : Option Nat :=
  (opcTable.find? (fun p => p.1.data = t)).map (fun p => p.2)

/-- `VAL2NAME`: byte-to-name map built first-wins over declaration
order, so the first name declared for a value is returned. -/
def VAL2NAME (v : Nat) : Option Str :=
  (opcTable.find? (fun p => p.2 = v)).map (fun p => p.1.data)

/-- Match of the assembler's bracketed-data regular expression
`/^<([0-9a-fA-F]+)>$/`: leading `<`, trailing `>`, and a nonempty
all-hex payload in between; returns the payload on success. -/
def bracketPayload? (t : Str) : Option Str :=
  if t.head? = some '<' ∧ t.getLast? = some '>' ∧
      (t.drop 1).dropLast ≠ [] ∧ ((t.drop 1).dropLast).all isHexDigit then
    some ((t.drop 1).dropLast)
  else none

/-- Match of the small-integer regular expression `/^(0|1[0-6]?|[1-9])$/`:
exactly the strings `0`..`9` and `10`..`16`. -/
def smallIntTok (t : Str) : Bool :=
  match t with
  | [c] => (48 ≤ c.toNat && c.toNat ≤ 57)
  | [c, d] => c = '1' && (48 ≤ d.toNat && d.toNat ≤ 54)
  | _ => false

/-- Decimal value of a digit string (`Number(t)` on the tokens matched
by the small-integer pattern). -/
def decVal (t : Str) : Nat :=
  t.foldl (fun n c => 10 * n + (c.toNat - 48)) 0

/-- Match of the mnemonic pattern `/^OP_[A-Z0-9_]+$/`. -/
def opPattern (t : Str) : Bool :=
  match t with
  | 'O' :: 'P' :: '_' :: rest =>
    !(rest.isEmpty) &&
      rest.all (fun c => (65 ≤ c.toNat && c.toNat ≤ 90) ||
        (48 ≤ c.toNat && c.toNat ≤ 57) || c.toNat = 95)
  | _ => false

/-- One iteration of the assembler's token loop (`asmToBytes`), in the
source's branch order: bracketed hex, literal `-1`, small integer,
`OP_*` mnemonic, bare hex, otherwise an error.  The small-integer
branch only falls through when `Number(t)` is outside `0..16`, which
cannot happen for a matched token, so that dead fall-through is not
modelled. -/
def encodeToken (t : Str) : Except String Bytes :=
  match bracketPayload? t with
  | some h =>
    if h.length % 2 ≠ 0 then .error ("Invalid hex data: " ++ String.mk t)
    else .ok (pushData (hexPairs h))
  | none =>
    if t = ['-', '1'] then .ok [0x4f]
    else if smallIntTok t then
      if decVal t = 0 then .ok [0x00]
      else .ok [0x51 + (decVal t - 1)]
    else if opPattern t then
      match lookupOPC t with
      | some code => .ok [code]
      | none => .error ("Unknown opcode: " ++ String.mk t)
    else if isHexStr t then
      if t.length % 2 ≠ 0 then .error ("Odd-length hex: " ++ String.mk t)
      else .ok (pushData (hexPairs t))
    else .error ("Unrecognized token: " ++ String.mk t)

/-- Encode every token in order; the first failing token aborts the
whole conversion, discarding partial output. -/
def encodeAll : List Str → Except String (List Bytes)
  | [] => .ok []
  | t :: ts =>
    match encodeToken t, encodeAll ts with
    | .error e, _ => .error e
    | .ok _, .error e => .error e
    | .ok b, .ok bs => .ok (b :: bs)

/-- `asmToBytes`: tokenize and concatenate the per-token encodings. -/
def asmToBytes (asm : Str) : Except String Bytes :=
  (encodeAll (tokens asm)).map List.flatten

/-- Little-endian read of `n` bytes (`readLE`).  Reading past the end of
a `Uint8Array` yields `undefined`, which the bitwise-or coerces to `0`;
`getD 0` reproduces that. -/
def readLE (n : Nat) (rest : Bytes) : Nat :=
  match n with
  | 0 => 0
  | m + 1 => (rest.headD 0) + 256 * readLE m (rest.drop 1)

/-- The token emitted by the disassembler for a data push. -/
def pushTokOf (data : Bytes) : Str :=
  '<' :: (bytesToHexStr data ++ ['>'])

/-- Fuel-indexed worker for the disassembler's cursor loop; each loop
iteration consumes at least one byte, so fuel equal to the byte count
suffices and the fuel-exhausted case is unreachable. -/
def decodeTokensF : Nat → Bytes → Except String (List Str)
  | _, [] => .ok []
  | 0, _ :: _ => .ok []
  | f + 1, op :: rest =>
    if 1 ≤ op ∧ op ≤ 0x4b then
      if (rest.take op).length ≠ op then .error "PUSHDATA truncated"
      else (decodeTokensF f (rest.drop op)).map (fun ts => pushTokOf (rest.take op) :: ts)
    else if op = 0x4c then
      if ((rest.drop 1).take (readLE 1 rest)).length ≠ readLE 1 rest then
        .error "PUSHDATA1 truncated"
      else (decodeTokensF f ((rest.drop 1).drop (readLE 1 rest))).map
        (fun ts => pushTokOf ((rest.drop 1).take (readLE 1 rest)) :: ts)
    else if op = 0x4d then
      if ((rest.drop 2).take (readLE 2 rest)).length ≠ readLE 2 rest then
        .error "PUSHDATA2 truncated"
      else (decodeTokensF f ((rest.drop 2).drop (readLE 2 rest))).map
        (fun ts => pushTokOf ((rest.drop 2).take (readLE 2 rest)) :: ts)
    else if op = 0x4e then
      if ((rest.drop 4).take (readLE 4 rest)).length ≠ readLE 4 rest then
        .error "PUSHDATA4 truncated"
      else (decodeTokensF f ((rest.drop 4).drop (readLE 4 rest))).map
        (fun ts => pushTokOf ((rest.drop 4).take (readLE 4 rest)) :: ts)
    else if op = 0x00 then (decodeTokensF f rest).map (fun ts => ['0'] :: ts)
    else if op = 0x4f then (decodeTokensF f rest).map (fun ts => ['-', '1'] :: ts)
    else if 0x51 ≤ op ∧ op ≤ 0x60 then
      (decodeTokensF f rest).map (fun ts => (toString (op - 0x51 + 1)).data :: ts)
    else
      match VAL2NAME op with
      | some name => (decodeTokensF f rest).map (fun ts => name :: ts)
      | none => .error "Unknown opcode"

/-- The disassembler's cursor loop (`bytesToAsm` before joining): one
instruction per step, in the source's branch order.  `bytes.slice(i, i + len)`
clamps at the end of the array, and the subsequent
`data.length !== len` comparison is the truncation check. -/
def decodeTokens (bs : Bytes) : Except String (List Str) :=
  decodeTokensF bs.length bs

/-- Join the decoded tokens with newlines (`out.join("\n")`). -/
def joinNl : List Str → Str
  | [] => []
  | [t] => t
  | t :: ts => t ++ '\n' :: joinNl ts

/-- `bytesToAsm`: decode and join one token per line. -/
def bytesToAsm (bs : Bytes) : Except String Str :=
  (decodeTokens bs).map joinNl

/-- `hexToAsm`: parse hex (after an extra `cleanHex`), return the empty
string for empty input, otherwise disassemble. -/
def hexToAsm (hex : Str) : Except String Str := do
  let bytes ← hexToBytes (cleanHex hex)
  if bytes = [] then pure []
  else bytesToAsm bytes

/-- `term.startsWith("<") && term.endsWith(">")`: the looser bracket
test used by the offset computations (no hex validation). -/
def looksBracketed (t : Str) : Bool :=
  t.head? = some '<' && t.getLast? = some '>'

/-- The length-accounting tiers shared by `computeLineArray` and
`computePcWordMap`: `l < 76` adds `l`; `75 < l < 256` adds `1 + l`;
`255 < l < 521` adds `2 + l`; otherwise `4 + l` is added.  `l` is a
JavaScript number, hence a rational here. -/
def tierAdd (l : ℚ) : ℚ :=
  if l < 76 then l
  else if 75 < l ∧ l < 256 then 1 + l
  else if 255 < l ∧ l < 521 then 2 + l
  else 4 + l

/-- Total advance of the running byte offset `cur` for one term: the
bracketed-data tier contribution (with `l = (term.length - 2) / 2`)
when the term looks bracketed, plus the unconditional `cur++`. -/
def termAdvance (t : Str) : ℚ :=
  (if looksBracketed t then tierAdd (((t.length : ℚ) - 2) / 2) else 0) + 1

/-- The inner term loop of `computeLineArray` over one line: empty
fragments produced by `split(/\s+/g)` are skipped wholesale (`continue`
fires before `cur++`), so the fold runs over the line's tokens. -/
def scanTerms (ts : List Str) (cur : ℚ) : ℚ :=
  ts.foldl (fun c t => c + termAdvance t) cur

/-- The line loop of `computeLineArray`: push the current offset for
every line, then advance over the line's tokens. -/
def lineArrayGo : List Str → ℚ → List ℚ
  | [], _ => []
  | line :: ls, cur => cur :: lineArrayGo ls (scanTerms (tokens line) cur)

/-- `computeLineArray`: byte offset of the start of each source line of
`asm.trim().split("\n")` (the component's `error` guard is state of the
surrounding UI and is not part of the computation). -/
def computeLineArray (asm : Str) : List ℚ :=
  lineArrayGo (splitNl (trimStr asm)) 0

/-- `asm.trim().split(/\s+/g)`: like `tokens`, except that an input
without any token yields the singleton list of the empty string. -/
def jsTrimSplit (asm : Str) : List Str :=
  match tokens asm with
  | [] => [[]]
  | ts => ts

/-- The term loop of `computePcWordMap`: record `(cur, index)` at every
term (no empty-fragment skipping here) and return the final offset. -/
def pcMapGo : List Str → Nat → ℚ → List (ℚ × Nat) × ℚ
  | [], _, cur => ([], cur)
  | t :: ts, i, cur =>
    let r := pcMapGo ts (i + 1) (cur + termAdvance t)
    ((cur, i) :: r.1, r.2)

/-- `computePcWordMap`: offset-to-token-index entries for every term of
`asm.trim().split(/\s+/g)`, plus the final sentinel entry at the final
offset mapping to `terms.length - 1`.  All keys are distinct (each term
advances `cur` by at least 1), so the entry list models the object
exactly. -/
def computePcWordMap (asm : Str) : List (ℚ × Nat) :=
  let terms := jsTrimSplit asm
  let r := pcMapGo terms 0 0
  r.1 ++ [(r.2, terms.length - 1)]

/-- Smallest key of the map whose value is `i` (the quantity the
offset-consistency property compares against the line table). -/
def minKeyFor (m : List (ℚ × Nat)) (i : Nat) : Option ℚ :=
  ((m.filter (fun p => p.2 = i)).map (fun p => p.1)).min?

/-- Token lists of the individual source lines, as `computeLineArray`
iterates them. -/
def lineTokens (asm : Str) : List (List Str) :=
  (splitNl (trimStr asm)).map tokens

/-- Index in the flattened token stream of the first token of line `k`. -/
def flatIdx (asm : Str) (k : Nat) : Nat :=
  (((lineTokens asm).take k).map List.length).sum

/-- `debugForward` when a nonempty trace is loaded: step clamped at the
trace length. -/
def debugForwardStep (traceLen cur : Nat) : Nat :=
  if traceLen ≤ cur then traceLen else cur + 1

/-- `debugBackward` when a nonempty trace is loaded: step floored at 1. -/
def debugBackwardStep (cur : Nat) : Nat :=
  if 1 < cur then cur - 1 else 1

/-- Apply a sequence of step operations (`true` = forward, `false` =
backward) to the current debug step index. -/
def applyDebugOps (traceLen : Nat) (ops : List Bool) (s : Nat) : Nat :=
  ops.foldl (fun c op => if op then debugForwardStep traceLen c else debugBackwardStep c) s

/-- The JSON body sent by the server's `POST /run-job` handler on a
successful debugger invocation: `res.json({ output: stdout.trim(), status: "success" })`,
modelled as the ordered field list of the object literal. -/
def runJobSuccessBody (stdout : String) : List (String × String) :=
  [("output", String.mk (trimStr stdout.data)), ("status", "success")]

/-- Value of a field of a JSON object body (`data.trace`, `data.status`). -/
def bodyField (body : List (String × String)) (k : String) : Option String :=
  (body.find? (fun p => p.1 = k)).map (fun p => p.2)

/-- A byte that reaches the final opcode-table lookup of the decode loop
and misses: not a push form, not `0`/`OP_1NEGATE`/a small integer, and
absent from `VAL2NAME`. -/
def isBadByte (b : Nat) : Bool :=
  !(1 ≤ b && b ≤ 0x4b) && !(b = 0x4c) && !(b = 0x4d) && !(b = 0x4e) &&
  !(b = 0x00) && !(b = 0x4f) && !(0x51 ≤ b && b ≤ 0x60) && (VAL2NAME b).isNone

/-- `DecBoundary bs s` holds when the decode cursor, started on `bs`,
reaches the suffix `s` at an instruction boundary; the constructors
mirror the recursive calls of `decodeTokens` exactly. -/
inductive DecBoundary : Bytes → Bytes → Prop where
  | refl (bs : Bytes) : DecBoundary bs bs
  | inline (op : Nat) (rest s : Bytes) : 1 ≤ op → op ≤ 0x4b →
      (rest.take op).length = op → DecBoundary (rest.drop op) s →
      DecBoundary (op :: rest) s
  | pd1 (rest s : Bytes) :
      ((rest.drop 1).take (readLE 1 rest)).length = readLE 1 rest →
      DecBoundary ((rest.drop 1).drop (readLE 1 rest)) s →
      DecBoundary (0x4c :: rest) s
  | pd2 (rest s : Bytes) :
      ((rest.drop 2).take (readLE 2 rest)).length = readLE 2 rest →
      DecBoundary ((rest.drop 2).drop (readLE 2 rest)) s →
      DecBoundary (0x4d :: rest) s
  | pd4 (rest s : Bytes) :
      ((rest.drop 4).take (readLE 4 rest)).length = readLE 4 rest →
      DecBoundary ((rest.drop 4).drop (readLE 4 rest)) s →
      DecBoundary (0x4e :: rest) s
  | zero (rest s : Bytes) : DecBoundary rest s → DecBoundary (0x00 :: rest) s
  | negOne (rest s : Bytes) : DecBoundary rest s → DecBoundary (0x4f :: rest) s
  | small (op : Nat) (rest s : Bytes) : 0x51 ≤ op → op ≤ 0x60 →
      DecBoundary rest s → DecBoundary (op :: rest) s
  | named (op : Nat) (name : Str) (rest s : Bytes) : op = 0x50 ∨ 0x61 ≤ op →
      VAL2NAME op = some name → DecBoundary rest s → DecBoundary (op :: rest) s

instance {ε α : Type} [DecidableEq ε] [DecidableEq α] : DecidableEq (Except ε α) := fun x y =>
  match x, y with
  | .error a, .error b =>
    if h : a = b then isTrue (by rw [h]) else isFalse (fun hc => h (Except.error.inj hc))
  | .ok a, .ok b =>
    if h : a = b then isTrue (by rw [h]) else isFalse (fun hc => h (Except.ok.inj hc))
  | .error _, .ok _ => isFalse (fun hc => Except.noConfusion hc)
  | .ok _, .error _ => isFalse (fun hc => Except.noConfusion hc)

theorem tokensF_congr :
    ∀ (n f g : Nat) (l : Str), l.length ≤ n → l.length ≤ f → l.length ≤ g →
      tokensF f l = tokensF g l := by
  intro n
  induction n with
  | zero =>
    intro f g l h0 _ _
    have : l = [] := List.length_eq_zero.mp (by omega)
    subst this
    cases f <;> cases g <;> rfl
  | succ n ih =>
    intro f g l h0 hf hg
    match l with
    | [] => cases f <;> cases g <;> rfl
    | c :: cs =>
      simp only [List.length_cons] at h0 hf hg
      obtain ⟨f', rfl⟩ : ∃ f', f = f' + 1 := ⟨f - 1, by omega⟩
      obtain ⟨g', rfl⟩ : ∃ g', g = g' + 1 := ⟨g - 1, by omega⟩
      simp only [tokensF]
      by_cases hws : isWs c
      · simp only [hws, if_true]
        exact ih f' g' cs (by omega) (by omega) (by omega)
      · have hws' : isWs c = false := by simpa using hws
        simp only [hws', Bool.false_eq_true, if_false]
        have hd := (List.dropWhile_sublist (l := cs) (fun d => !(isWs d))).length_le
        rw [ih f' g' (cs.dropWhile (fun d => !(isWs d))) (by omega) (by omega) (by omega)]

theorem tokens_nil : tokens [] = [] := rfl

theorem tokens_cons (c : Char) (cs : Str) :
    tokens (c :: cs) =
      if isWs c then tokens cs
      else (c :: cs.takeWhile (fun d => !(isWs d))) ::
        tokens (cs.dropWhile (fun d => !(isWs d))) := by
  show tokensF (cs.length + 1) (c :: cs) = _
  simp only [tokensF]
  by_cases hws : isWs c
  · simp only [hws, if_true]
    rfl
  · have hws' : isWs c = false := by simpa using hws
    simp only [hws', Bool.false_eq_true, if_false]
    have hd := (List.dropWhile_sublist (l := cs) (fun d => !(isWs d))).length_le
    rw [tokensF_congr cs.length cs.length (cs.dropWhile (fun d => !(isWs d))).length
      (cs.dropWhile (fun d => !(isWs d))) (by omega) (by omega) (by omega)]
    rfl

theorem tokens_cons_ws {c : Char} (cs : Str) (h : isWs c = true) :
    tokens (c :: cs) = tokens cs := by
  rw [tokens_cons, if_pos h]

theorem tokens_cons_nws {c : Char} (cs : Str) (h : isWs c = false) :
    tokens (c :: cs) = (c :: cs.takeWhile (fun d => !(isWs d))) ::
      tokens (cs.dropWhile (fun d => !(isWs d))) := by
  rw [tokens_cons, if_neg (by simp [h])]

theorem tokens_append_mid :
    ∀ (n : Nat) (a : Str), a.length ≤ n → ∀ (c : Char) (b : Str), isWs c = true →
      tokens (a ++ c :: b) = tokens a ++ tokens b := by
  intro n
  induction n with
  | zero =>
    intro a ha c b hc
    have : a = [] := List.length_eq_zero.mp (by omega)
    subst this
    simp only [List.nil_append, tokens_nil]
    rw [tokens_cons_ws b hc]
  | succ n ih =>
    intro a ha c b hc
    match a with
    | [] =>
      simp only [List.nil_append, tokens_nil]
      rw [tokens_cons_ws b hc]
    | x :: xs =>
      simp only [List.length_cons] at ha
      by_cases hx : isWs x
      · rw [List.cons_append, tokens_cons_ws _ hx, tokens_cons_ws _ hx]
        exact ih xs (by omega) c b hc
      · have hx' : isWs x = false := by simpa using hx
        rw [List.cons_append, tokens_cons_nws _ hx', tokens_cons_nws _ hx']
        have htk : (xs ++ c :: b).takeWhile (fun d => !(isWs d)) =
            xs.takeWhile (fun d => !(isWs d)) := by
          rw [List.takeWhile_append]
          by_cases hall : (xs.takeWhile (fun d => !(isWs d))).length = xs.length
          · rw [if_pos hall]
            have hxs : xs.takeWhile (fun d => !(isWs d)) = xs :=
              (List.takeWhile_prefix (fun d => !(isWs d))).eq_of_length hall
            rw [List.takeWhile_cons, hc]
            simp [hxs]
          · rw [if_neg hall]
        have hdr : (xs ++ c :: b).dropWhile (fun d => !(isWs d)) =
            if (xs.dropWhile (fun d => !(isWs d))).isEmpty then c :: b
            else xs.dropWhile (fun d => !(isWs d)) ++ c :: b := by
          rw [List.dropWhile_append]
          by_cases hall : (xs.dropWhile (fun d => !(isWs d))).isEmpty
          · rw [if_pos hall, if_pos hall, List.dropWhile_cons, hc]
            simp
          · rw [if_neg hall, if_neg hall]
        rw [htk, hdr]
        by_cases hall : (xs.dropWhile (fun d => !(isWs d))).isEmpty
        · rw [if_pos hall]
          have hxs : xs.takeWhile (fun d => !(isWs d)) = xs := by
            have := List.takeWhile_append_dropWhile (fun d => !(isWs d)) xs
            rw [List.isEmpty_iff.mp hall, List.append_nil] at this
            exact this
          rw [tokens_cons_ws b hc, hxs]
          have hnil : tokens (xs.dropWhile (fun d => !(isWs d))) = [] := by
            rw [List.isEmpty_iff.mp hall, tokens_nil]
          rw [hnil]
          simp
        · rw [if_neg hall]
          have hlen := (List.dropWhile_sublist (l := xs) (fun d => !(isWs d))).length_le
          rw [ih (xs.dropWhile (fun d => !(isWs d))) (by omega) c b hc]
          simp

/-- Whitespace-only strings have no tokens. -/
theorem tokens_all_ws :
    ∀ (w : Str), (∀ c ∈ w, isWs c = true) → tokens w = [] := by
  intro w
  induction w with
  | nil => intro _; rfl
  | cons c cs ih =>
    intro h
    rw [tokens_cons_ws cs (h c (List.mem_cons_self c cs))]
    exact ih (fun d hd => h d (List.mem_cons_of_mem c hd))

/-- Appending trailing whitespace does not change the token list. -/
theorem tokens_append_ws :
    ∀ (a w : Str), (∀ c ∈ w, isWs c = true) → tokens (a ++ w) = tokens a := by
  intro a w hw
  match w with
  | [] => simp
  | c :: w' =>
    rw [tokens_append_mid a.length a (le_refl _) c w' (hw c (List.mem_cons_self c w'))]
    rw [tokens_all_ws w' (fun d hd => hw d (List.mem_cons_of_mem c hd))]
    simp

/-- Trimming does not change the token list. -/
theorem tokens_trim (l : Str) : tokens (trimStr l) = tokens l := by
  have h1 : tokens (l.dropWhile isWs) = tokens l := by
    induction l with
    | nil => rfl
    | cons c cs ih =>
      by_cases h : isWs c
      · rw [List.dropWhile_cons_of_pos h, ih, tokens_cons_ws cs h]
      · rw [List.dropWhile_cons_of_neg h]
  set m := l.dropWhile isWs with hm
  have hdecomp : m = trimStr l ++ (m.reverse.takeWhile isWs).reverse := by
    unfold trimStr
    rw [← hm]
    conv_lhs => rw [← List.reverse_reverse m]
    conv_lhs => rw [← List.takeWhile_append_dropWhile isWs m.reverse]
    rw [List.reverse_append]
  have hws : ∀ c ∈ (m.reverse.takeWhile isWs).reverse, isWs c = true := by
    intro c hc
    rw [List.mem_reverse] at hc
    exact List.mem_takeWhile_imp hc
  rw [← h1, hdecomp, tokens_append_ws _ _ hws]

theorem splitNl_ne_nil : ∀ (l : Str), splitNl l ≠ [] := by
  intro l
  match l with
  | [] => simp [splitNl]
  | c :: cs =>
    simp only [splitNl]
    by_cases h : c = '\n'
    · simp [h]
    · simp only [h, if_false]
      match hs : splitNl cs with
      | [] => simp
      | t :: ts => simp

theorem splitNl_decomp :
    ∀ (l : Str) (t : Str) (ts : List Str), splitNl l = t :: ts →
      (ts = [] ∧ l = t) ∨
      (∃ rest, l = t ++ '\n' :: rest ∧ splitNl rest = ts) := by
  intro l
  induction l with
  | nil =>
    intro t ts h
    simp only [splitNl] at h
    cases h
    exact Or.inl ⟨rfl, rfl⟩
  | cons c cs ih =>
    intro t ts h
    simp only [splitNl] at h
    by_cases hc : c = '\n'
    · rw [if_pos hc] at h
      cases h
      exact Or.inr ⟨cs, by rw [hc]; rfl, rfl⟩
    · rw [if_neg hc] at h
      match hs : splitNl cs with
      | [] => exact absurd hs (splitNl_ne_nil cs)
      | t' :: ts' =>
        rw [hs] at h
        rcases List.cons_eq_cons.mp h with ⟨h1, h2⟩
        rcases ih t' ts' hs with ⟨hts, hcs⟩ | ⟨rest, hcs, hrest⟩
        · refine Or.inl ⟨by rw [← h2, hts], ?_⟩
          rw [← h1, hcs]
        · refine Or.inr ⟨rest, ?_, by rw [← h2, hrest]⟩
          rw [← h1, hcs]
          rfl

/-- The flattened per-line token lists are the token list of the whole
string: line breaks are whitespace. -/
theorem tokens_flatten_splitNl :
    ∀ (n : Nat) (l : Str), l.length ≤ n →
      tokens l = ((splitNl l).map tokens).flatten := by
  intro n
  induction n with
  | zero =>
    intro l h
    have : l = [] := List.length_eq_zero.mp (by omega)
    subst this
    simp [splitNl, tokens_nil]
  | succ n ih =>
    intro l hl
    match hs : splitNl l with
    | [] => exact absurd hs (splitNl_ne_nil l)
    | t :: ts =>
      rcases splitNl_decomp l t ts hs with ⟨hts, hlt⟩ | ⟨rest, hlt, hrest⟩
      · subst hts
        subst hlt
        simp
      · subst hlt
        have hws : isWs '\n' = true := by decide
        rw [tokens_append_mid t.length t (le_refl _) '\n' rest hws]
        have hlen : rest.length ≤ n := by
          have := List.length_append t ('\n' :: rest)
          simp only [List.length_append, List.length_cons] at hl
          omega
        rw [ih rest hlen, hrest]
        simp

/-- Every token is nonempty, whitespace-free and a sublist of the
input. -/
theorem tokens_mem :
    ∀ (n : Nat) (l : Str), l.length ≤ n → ∀ t ∈ tokens l,
      t ≠ [] ∧ (∀ c ∈ t, isWs c = false) ∧ t.Sublist l := by
  intro n
  induction n with
  | zero =>
    intro l h t ht
    have : l = [] := List.length_eq_zero.mp (by omega)
    subst this
    simp [tokens_nil] at ht
  | succ n ih =>
    intro l hl t ht
    match l with
    | [] => simp [tokens_nil] at ht
    | c :: cs =>
      simp only [List.length_cons] at hl
      by_cases hc : isWs c
      · rw [tokens_cons_ws cs hc] at ht
        obtain ⟨h1, h2, h3⟩ := ih cs (by omega) t ht
        exact ⟨h1, h2, h3.cons c⟩
      · have hc' : isWs c = false := by simpa using hc
        rw [tokens_cons_nws cs hc'] at ht
        rcases List.mem_cons.mp ht with rfl | ht2
        · refine ⟨by simp, ?_, ?_⟩
          · intro d hd
            rcases List.mem_cons.mp hd with rfl | hd2
            · exact hc'
            · have := List.mem_takeWhile_imp hd2
              simpa using this
          · exact (List.takeWhile_sublist (fun d => !(isWs d))).cons₂ c
        · have hlen := (List.dropWhile_sublist (l := cs) (fun d => !(isWs d))).length_le
          obtain ⟨h1, h2, h3⟩ := ih (cs.dropWhile (fun d => !(isWs d))) (by omega) t ht2
          exact ⟨h1, h2, (h3.trans (List.dropWhile_sublist _)).cons c⟩

/-- A nonempty whitespace-free string is its own single token. -/
theorem tokens_single (t : Str) (h1 : t ≠ []) (h2 : ∀ c ∈ t, isWs c = false) :
    tokens t = [t] := by
  match t with
  | [] => exact absurd rfl h1
  | c :: cs =>
    have hc : isWs c = false := h2 c (List.mem_cons_self c cs)
    rw [tokens_cons_nws cs hc]
    have htk : cs.takeWhile (fun d => !(isWs d)) = cs := by
      rw [List.takeWhile_eq_self_iff]
      intro d hd
      simp [h2 d (List.mem_cons_of_mem c hd)]
    have hdr : cs.dropWhile (fun d => !(isWs d)) = [] := by
      rw [List.dropWhile_eq_nil_iff]
      intro d hd
      simp [h2 d (List.mem_cons_of_mem c hd)]
    rw [htk, hdr, tokens_nil]

theorem decodeTokensF_congr :
    ∀ (n f g : Nat) (bs : Bytes), bs.length ≤ n → bs.length ≤ f → bs.length ≤ g →
      decodeTokensF f bs = decodeTokensF g bs := by
  intro n
  induction n with
  | zero =>
    intro f g bs h0 _ _
    have : bs = [] := List.length_eq_zero.mp (by omega)
    subst this
    cases f <;> cases g <;> rfl
  | succ n ih =>
    intro f g bs h0 hf hg
    match bs with
    | [] => cases f <;> cases g <;> rfl
    | op :: rest =>
      simp only [List.length_cons] at h0 hf hg
      obtain ⟨f', rfl⟩ : ∃ f', f = f' + 1 := ⟨f - 1, by omega⟩
      obtain ⟨g', rfl⟩ : ∃ g', g = g' + 1 := ⟨g - 1, by omega⟩
      have hdl : ∀ (k len : Nat), ((rest.drop k).drop len).length ≤ n := by
        intro k len
        simp only [List.length_drop]
        omega
      simp only [decodeTokensF]
      split_ifs with h1 h2 h3 h4 h5 h6 h7 h8 h9 h10 h11
      · rfl
      · rw [ih f' g' (rest.drop op) (by simp only [List.length_drop]; omega)
          (by simp only [List.length_drop]; omega) (by simp only [List.length_drop]; omega)]
      · rfl
      · rw [ih f' g' ((rest.drop 1).drop (readLE 1 rest)) (hdl 1 _)
          (by have := hdl 1 (readLE 1 rest); simp only [List.length_drop] at this ⊢; omega)
          (by have := hdl 1 (readLE 1 rest); simp only [List.length_drop] at this ⊢; omega)]
      · rfl
      · rw [ih f' g' ((rest.drop 2).drop (readLE 2 rest)) (hdl 2 _)
          (by simp only [List.length_drop]; omega) (by simp only [List.length_drop]; omega)]
      · rfl
      · rw [ih f' g' ((rest.drop 4).drop (readLE 4 rest)) (hdl 4 _)
          (by simp only [List.length_drop]; omega) (by simp only [List.length_drop]; omega)]
      · rw [ih f' g' rest (by omega) (by omega) (by omega)]
      · rw [ih f' g' rest (by omega) (by omega) (by omega)]
      · rw [ih f' g' rest (by omega) (by omega) (by omega)]
      · cases VAL2NAME op with
        | none => rfl
        | some name => rw [ih f' g' rest (by omega) (by omega) (by omega)]

theorem decodeTokens_nil : decodeTokens [] = .ok [] := rfl

/-- One-step unfolding of the decoder in terms of itself. -/
theorem decodeTokens_cons (op : Nat) (rest : Bytes) :
    decodeTokens (op :: rest) =
      if 1 ≤ op ∧ op ≤ 0x4b then
        if (rest.take op).length ≠ op then .error "PUSHDATA truncated"
        else (decodeTokens (rest.drop op)).map (fun ts => pushTokOf (rest.take op) :: ts)
      else if op = 0x4c then
        if ((rest.drop 1).take (readLE 1 rest)).length ≠ readLE 1 rest then
          .error "PUSHDATA1 truncated"
        else (decodeTokens ((rest.drop 1).drop (readLE 1 rest))).map
          (fun ts => pushTokOf ((rest.drop 1).take (readLE 1 rest)) :: ts)
      else if op = 0x4d then
        if ((rest.drop 2).take (readLE 2 rest)).length ≠ readLE 2 rest then
          .error "PUSHDATA2 truncated"
        else (decodeTokens ((rest.drop 2).drop (readLE 2 rest))).map
          (fun ts => pushTokOf ((rest.drop 2).take (readLE 2 rest)) :: ts)
      else if op = 0x4e then
        if ((rest.drop 4).take (readLE 4 rest)).length ≠ readLE 4 rest then
          .error "PUSHDATA4 truncated"
        else (decodeTokens ((rest.drop 4).drop (readLE 4 rest))).map
          (fun ts => pushTokOf ((rest.drop 4).take (readLE 4 rest)) :: ts)
      else if op = 0x00 then (decodeTokens rest).map (fun ts => ['0'] :: ts)
      else if op = 0x4f then (decodeTokens rest).map (fun ts => ['-', '1'] :: ts)
      else if 0x51 ≤ op ∧ op ≤ 0x60 then
        (decodeTokens rest).map (fun ts => (toString (op - 0x51 + 1)).data :: ts)
      else
        match VAL2NAME op with
        | some name => (decodeTokens rest).map (fun ts => name :: ts)
        | none => .error "Unknown opcode" := by
  show decodeTokensF (rest.length + 1) (op :: rest) = _
  simp only [decodeTokensF]
  have hc : ∀ (X : Bytes), X.length ≤ rest.length →
      decodeTokensF rest.length X = decodeTokens X := by
    intro X hX
    exact decodeTokensF_congr rest.length rest.length X.length X hX hX (le_refl _)
  split_ifs with h1 h2 h3 h4 h5 h6 h7 h8 h9 h10 h11
  · rfl
  · rw [hc (rest.drop op) (by simp only [List.length_drop]; omega)]
  · rfl
  · rw [hc ((rest.drop 1).drop (readLE 1 rest)) (by simp only [List.length_drop]; omega)]
  · rfl
  · rw [hc ((rest.drop 2).drop (readLE 2 rest)) (by simp only [List.length_drop]; omega)]
  · rfl
  · rw [hc ((rest.drop 4).drop (readLE 4 rest)) (by simp only [List.length_drop]; omega)]
  · rw [hc rest (le_refl _)]
  · rw [hc rest (le_refl _)]
  · rw [hc rest (le_refl _)]
  · cases VAL2NAME op with
    | none => rfl
    | some name => rw [hc rest (le_refl _)]

theorem jsToLower_toNat (c : Char) :
    (jsToLower c).toNat = if 65 ≤ c.toNat ∧ c.toNat ≤ 90 then c.toNat + 32 else c.toNat := by
  unfold jsToLower
  split_ifs with h
  · show (c.val + 32).toNat = c.toNat + 32
    have h2 : (32 : UInt32).toNat = 32 := rfl
    have hsz : UInt32.size = 4294967296 := rfl
    rw [UInt32.toNat_add, h2, hsz]
    have h90 : c.toNat ≤ 90 := h.2
    have hvt : c.val.toNat = c.toNat := rfl
    exact Nat.mod_eq_of_lt (by omega)
  · rfl

theorem jsToLower_eq_self (c : Char) (h : ¬(65 ≤ c.toNat ∧ c.toNat ≤ 90)) :
    jsToLower c = c := by
  unfold jsToLower
  rw [dif_neg h]

theorem isWs_iff (c : Char) :
    isWs c = true ↔ (c.toNat = 9 ∨ c.toNat = 10 ∨ c.toNat = 11 ∨ c.toNat = 12 ∨
      c.toNat = 13 ∨ c.toNat = 32 ∨ c.toNat = 0xa0 ∨ c.toNat = 0x1680 ∨
      (0x2000 ≤ c.toNat ∧ c.toNat ≤ 0x200a) ∨ c.toNat = 0x2028 ∨ c.toNat = 0x2029 ∨
      c.toNat = 0x202f ∨ c.toNat = 0x205f ∨ c.toNat = 0x3000 ∨ c.toNat = 0xfeff) := by
  simp [isWs]
  tauto

theorem jsToLower_idem (c : Char) : jsToLower (jsToLower c) = jsToLower c := by
  by_cases h : 65 ≤ c.toNat ∧ c.toNat ≤ 90
  · apply jsToLower_eq_self
    rw [jsToLower_toNat, if_pos h]
    omega
  · rw [jsToLower_eq_self c h]
    exact jsToLower_eq_self c h

theorem isWs_jsToLower (c : Char) : isWs (jsToLower c) = isWs c := by
  by_cases h : 65 ≤ c.toNat ∧ c.toNat ≤ 90
  · have ht : (jsToLower c).toNat = c.toNat + 32 := by rw [jsToLower_toNat, if_pos h]
    cases hb : isWs (jsToLower c) with
    | false =>
      cases hb2 : isWs c with
      | false => rfl
      | true =>
        exfalso
        have := (isWs_iff c).mp hb2
        omega
    | true =>
      exfalso
      have := (isWs_iff (jsToLower c)).mp hb
      rw [ht] at this
      omega
  · rw [jsToLower_eq_self c h]

theorem cleanHex_idem (s : Str) : cleanHex (cleanHex s) = cleanHex s := by
  unfold cleanHex
  rw [List.filter_map]
  have hcomp : ((fun c => !(isWs c)) ∘ jsToLower) = (fun c => !(isWs c)) := by
    funext c
    simp [Function.comp, isWs_jsToLower]
  rw [hcomp, List.filter_filter]
  have h1 : List.filter (fun a => !(isWs a) && !(isWs a)) s = List.filter (fun a => !(isWs a)) s := by
    congr 1
    funext a
    cases isWs a <;> rfl
  rw [h1, List.map_map]
  have h2 : (jsToLower ∘ jsToLower) = jsToLower := by
    funext c
    exact jsToLower_idem c
  rw [h2]

/-- C3: the minimal push-prefix encoding is a total function of the
payload length `L` alone with exactly the four documented tiers
(single length byte for `L ≤ 75`, `PUSHDATA1` + 1-byte length for
`76 ≤ L ≤ 255`, `PUSHDATA2` + 2-byte little-endian length for
`256 ≤ L ≤ 65535`, `PUSHDATA4` + 4-byte little-endian length for
`L > 65535`), and the boundary payload lengths 75, 76, 255, 256,
65535, 65536 select single-byte, PUSHDATA1, PUSHDATA1, PUSHDATA2,
PUSHDATA2, PUSHDATA4 respectively. -/
theorem c3_pushPrefix_tiers :
    ∀ L : Nat,
      (L ≤ 75 → pushPrefix L = [L]) ∧
      (76 ≤ L ∧ L ≤ 255 → pushPrefix L = [0x4c, L]) ∧
      (256 ≤ L ∧ L ≤ 65535 → pushPrefix L = [0x4d, L % 256, L / 256 % 256]) ∧
      (65536 ≤ L →
        pushPrefix L = [0x4e, L % 256, L / 256 % 256, L / 65536 % 256, L / 16777216 % 256]) ∧
      pushPrefix 75 = [75] ∧ pushPrefix 76 = [0x4c, 76] ∧
      pushPrefix 255 = [0x4c, 255] ∧ pushPrefix 256 = [0x4d, 0, 1] ∧
      pushPrefix 65535 = [0x4d, 255, 255] ∧ pushPrefix 65536 = [0x4e, 0, 0, 1, 0] := by
  intro L
  refine ⟨?_, ?_, ?_, ?_, by decide, by decide, by decide, by decide, by decide, by decide⟩
  · intro h
    unfold pushPrefix
    rw [if_pos h]
  · intro h
    unfold pushPrefix
    rw [if_neg (by omega), if_pos (by omega)]
  · intro h
    unfold pushPrefix
    rw [if_neg (by omega), if_neg (by omega), if_pos (by omega)]
  · intro h
    unfold pushPrefix
    rw [if_neg (by omega), if_neg (by omega), if_neg (by omega)]

/-- Witness for C3: concrete lengths in the middle of each conditional
tier. -/
theorem c3_pushPrefix_tiers_witness :
    pushPrefix 10 = [10] ∧ pushPrefix 100 = [0x4c, 100] ∧
    pushPrefix 300 = [0x4d, 44, 1] ∧ pushPrefix 70000 = [0x4e, 112, 17, 1, 0] :=
  ⟨(c3_pushPrefix_tiers 10).1 (by decide),
   (c3_pushPrefix_tiers 100).2.1 ⟨by decide, by decide⟩,
   (c3_pushPrefix_tiers 300).2.2.1 ⟨by decide, by decide⟩,
   (c3_pushPrefix_tiers 70000).2.2.2.1 (by decide)⟩

/-- C4 counterexample: assembling `OP_FALSE` yields the byte 0x00, but
disassembling 0x00 yields the token `0` (the small-integer branch of
the decoder fires before the opcode-table lookup), not `OP_0` as the
claim states. -/
theorem c4_counterexample :
    asmToBytes "OP_FALSE".data = .ok [0x00] ∧
    bytesToAsm [0x00] = .ok "0".data ∧
    "0".data ≠ "OP_0".data :=
  ⟨by decide, by decide, by decide⟩

/-- C4 amended: assembling `OP_FALSE` and disassembling the resulting
bytecode yields exactly the token `0` — the small-integer rendering of
byte 0x00 — so the alias spelling `OP_FALSE` never reappears (and
neither does `OP_0`). -/
theorem c4_alias_decode :
    asmToBytes "OP_FALSE".data = .ok [0x00] ∧ bytesToAsm [0x00] = .ok "0".data :=
  ⟨by decide, by decide⟩

/-- C5: the bytecode [0x4c, 0x05, 0x01, 0x02] fails with the PUSHDATA1
truncation error and an inline push with missing data fails likewise,
but a PUSHDATA1/PUSHDATA2 whose length field itself extends past the
end of the input does NOT fail when the bytes present in the field are
zero: the out-of-range read yields `undefined`, the bitwise-or coerces
it to 0, and the decoder successfully emits the token `<>` (which the
assembler cannot even reparse), contradicting the claim. -/
theorem c5_truncation_eval :
    bytesToAsm [0x4c, 0x05, 0x01, 0x02] = .error "PUSHDATA1 truncated" ∧
    bytesToAsm [0x01] = .error "PUSHDATA truncated" ∧
    bytesToAsm [0x4c] = .ok "<>".data ∧
    bytesToAsm [0x4d, 0x00] = .ok "<>".data :=
  ⟨by decide, by decide, by decide, by decide⟩

/-- C7: the body of the server's successful `POST /run-job` response
has a `status: "success"` field and an `output` field holding the raw
trimmed stdout of the debugger, but no `trace` field at all — the
client's `data.trace` read comes back undefined. -/
theorem c7_response_no_trace :
    ∀ stdout : String,
      bodyField (runJobSuccessBody stdout) "status" = some "success" ∧
      bodyField (runJobSuccessBody stdout) "output" =
        some (String.mk (trimStr stdout.data)) ∧
      bodyField (runJobSuccessBody stdout) "trace" = none := by
  intro stdout
  refine ⟨?_, ?_, ?_⟩
  · simp [bodyField, runJobSuccessBody, List.find?]
  · simp [bodyField, runJobSuccessBody, List.find?]
  · simp [bodyField, runJobSuccessBody, List.find?]

/-- C9: once a nonempty trace is loaded, the debug step index stays in
`[0, trace.length]` under every sequence of step operations; a single
forward step at or beyond the trace length clamps to the trace length,
repeated forward steps never advance past it, and a backward step
never takes the index below 1. -/
theorem c9_step_clamping :
    ∀ n : Nat, 1 ≤ n →
      (∀ s : Nat, s ≤ n → ∀ ops : List Bool, applyDebugOps n ops s ≤ n) ∧
      (∀ s : Nat, n ≤ s → debugForwardStep n s = n) ∧
      (∀ s k : Nat, n ≤ s → 1 ≤ k → applyDebugOps n (List.replicate k true) s = n) ∧
      (∀ s : Nat, 1 ≤ debugBackwardStep s) := by
  intro n hn
  have hfwd : ∀ s : Nat, s ≤ n → debugForwardStep n s ≤ n := by
    intro s hs
    unfold debugForwardStep
    split_ifs with h
    · exact le_refl n
    · omega
  have hbwd1 : ∀ s : Nat, 1 ≤ debugBackwardStep s := by
    intro s
    unfold debugBackwardStep
    split_ifs with h <;> omega
  have hbwd : ∀ s : Nat, s ≤ n → debugBackwardStep s ≤ n := by
    intro s hs
    unfold debugBackwardStep
    split_ifs with h <;> omega
  have hclamp : ∀ s : Nat, n ≤ s → debugForwardStep n s = n := by
    intro s hs
    unfold debugForwardStep
    rw [if_pos hs]
  refine ⟨?_, hclamp, ?_, hbwd1⟩
  · intro s hs ops
    induction ops generalizing s with
    | nil => exact hs
    | cons op ops ih =>
      simp only [applyDebugOps, List.foldl_cons] at ih ⊢
      cases op
      · exact ih (debugBackwardStep s) (hbwd s hs)
      · exact ih (debugForwardStep n s) (hfwd s hs)
  · intro s k hs hk
    induction k generalizing s with
    | zero => omega
    | succ k ih =>
      simp only [List.replicate_succ, applyDebugOps, List.foldl_cons]
      rcases Nat.eq_zero_or_pos k with rfl | hkpos
      · simp only [List.replicate_zero, List.foldl_nil, if_true]
        exact hclamp s hs
      · have := ih (debugForwardStep n s) (by rw [hclamp s hs]) hkpos
        simpa [applyDebugOps] using this

/-- Witness for C9: with a three-step trace, mixed stepping stays in
range, over-stepping clamps at 3 and backward stepping floors at 1. -/
theorem c9_step_clamping_witness :
    applyDebugOps 3 [true, true, false, true, true, true, false, false, false] 1 ≤ 3 ∧
    debugForwardStep 3 3 = 3 ∧
    applyDebugOps 3 (List.replicate 5 true) 3 = 3 ∧
    1 ≤ debugBackwardStep 1 :=
  ⟨(c9_step_clamping 3 (by decide)).1 1 (by decide) _,
   (c9_step_clamping 3 (by decide)).2.1 3 (by decide),
   (c9_step_clamping 3 (by decide)).2.2.1 3 5 (by decide) (by decide),
   (c9_step_clamping 3 (by decide)).2.2.2 1⟩

/-- C10: hex parsing at the public interface is whitespace- and
case-insensitive — `hexToBytes` of any string equals `hexToBytes` of
the same string with all whitespace removed and all letters
lowercased — and `hexToAsm` of a whitespace-only (in particular empty)
string returns the empty string instead of an error. -/
theorem c10_hex_normalization :
    ∀ s : Str,
      hexToBytes s = hexToBytes ((s.filter (fun c => !(isWs c))).map jsToLower) ∧
      ((∀ c ∈ s, isWs c = true) → hexToAsm s = .ok []) := by
  intro s
  constructor
  · show hexToBytes s = hexToBytes (cleanHex s)
    unfold hexToBytes
    rw [cleanHex_idem]
  · intro hws
    have hclean : cleanHex s = [] := by
      unfold cleanHex
      have : s.filter (fun c => !(isWs c)) = [] := by
        rw [List.filter_eq_nil_iff]
        intro c hc
        simp [hws c hc]
      rw [this]
      rfl
    unfold hexToAsm
    rw [hclean]
    rfl

/-- Witness for C10: whitespace/case normalization on a concrete mixed
string, and a whitespace-only input disassembling to the empty
string. -/
theorem c10_hex_normalization_witness :
    hexToBytes " A b".data =
      hexToBytes ((" A b".data.filter (fun c => !(isWs c))).map jsToLower) ∧
    hexToAsm "  ".data = .ok [] :=
  ⟨(c10_hex_normalization " A b".data).1,
   (c10_hex_normalization "  ".data).2 (by decide)⟩

theorem exceptMap_ok {α β : Type} (f : α → β) (e : Except String α) (y : β) :
    e.map f = .ok y ↔ ∃ x, e = .ok x ∧ y = f x := by
  cases e with
  | error a => simp [Except.map]
  | ok a =>
    simp only [Except.map]
    constructor
    · intro h
      exact ⟨a, rfl, (Except.ok.inj h).symm⟩
    · rintro ⟨x, hx, hy⟩
      rw [hy, Except.ok.inj hx]

theorem exceptMap_error {α β : Type} (f : α → β) (e : Except String α) (msg : String)
    (h : e = .error msg) : e.map f = .error msg := by
  rw [h]
  rfl

/-- A bad byte at the head of the decode loop hits the final
opcode-table lookup and fails. -/
theorem decode_badByte_head (b : Nat) (rest : Bytes) (hb : isBadByte b = true) :
    decodeTokens (b :: rest) = .error "Unknown opcode" := by
  simp only [isBadByte, Bool.and_eq_true, Bool.not_eq_true', decide_eq_false_iff_not,
    Option.isNone_iff_eq_none] at hb
  obtain ⟨⟨⟨⟨⟨⟨⟨h1, h2⟩, h3⟩, h4⟩, h5⟩, h6⟩, h7⟩, h8⟩ := hb
  rw [decodeTokens_cons]
  rw [if_neg (by simp at h1; omega)]
  rw [if_neg (by simpa using h2)]
  rw [if_neg (by simpa using h3)]
  rw [if_neg (by simpa using h4)]
  rw [if_neg (by simpa using h5)]
  rw [if_neg (by simpa using h6)]
  rw [if_neg (by simp at h7; omega)]
  rw [h8]

/-- Decode errors at a reachable instruction boundary propagate to the
whole decode. -/
theorem decode_boundary_error (bs s : Bytes) (hb : DecBoundary bs s) (e : String)
    (he : decodeTokens s = .error e) : decodeTokens bs = .error e := by
  induction hb with
  | refl bs => exact he
  | inline op rest s h1 h2 hlen _ ih =>
    rw [decodeTokens_cons, if_pos ⟨h1, h2⟩, if_neg (by omega)]
    exact exceptMap_error _ _ e (ih he)
  | pd1 rest s hlen _ ih =>
    rw [decodeTokens_cons, if_neg (by omega), if_pos rfl, if_neg (by omega)]
    exact exceptMap_error _ _ e (ih he)
  | pd2 rest s hlen _ ih =>
    rw [decodeTokens_cons, if_neg (by omega), if_neg (by omega), if_pos rfl,
      if_neg (by omega)]
    exact exceptMap_error _ _ e (ih he)
  | pd4 rest s hlen _ ih =>
    rw [decodeTokens_cons, if_neg (by omega), if_neg (by omega), if_neg (by omega),
      if_pos rfl, if_neg (by omega)]
    exact exceptMap_error _ _ e (ih he)
  | zero rest s _ ih =>
    rw [decodeTokens_cons, if_neg (by omega), if_neg (by omega), if_neg (by omega),
      if_neg (by omega), if_pos rfl]
    exact exceptMap_error _ _ e (ih he)
  | negOne rest s _ ih =>
    rw [decodeTokens_cons, if_neg (by omega), if_neg (by omega), if_neg (by omega),
      if_neg (by omega), if_neg (by omega), if_pos rfl]
    exact exceptMap_error _ _ e (ih he)
  | small op rest s h1 h2 _ ih =>
    rw [decodeTokens_cons, if_neg (by omega), if_neg (by omega), if_neg (by omega),
      if_neg (by omega), if_neg (by omega), if_neg (by omega), if_pos ⟨h1, h2⟩]
    exact exceptMap_error _ _ e (ih he)
  | named op name rest s hop hname _ ih =>
    rw [decodeTokens_cons, if_neg (by omega), if_neg (by omega), if_neg (by omega),
      if_neg (by omega), if_neg (by omega), if_neg (by omega), if_neg (by omega)]
    rw [hname]
    exact exceptMap_error _ _ e (ih he)


theorem noPre_cons (c : Char) (l : Str) (hc : c ≠ '0') : ¬ (['0', 'x'] <+: (c :: l)) := by
  rintro ⟨u, hu⟩
  simp only [List.cons_append] at hu
  exact hc (List.cons_eq_cons.mp hu).1.symm

theorem noPre_short (t : Str) (h : t.length ≤ 1) : ¬ (['0', 'x'] <+: t) := by
  intro hp
  have := hp.length_le
  simp at this
  omega

theorem decode_ok_no0x :
    ∀ (n : Nat) (bs : Bytes), bs.length ≤ n → ∀ ts, decodeTokens bs = .ok ts →
      ∀ t ∈ ts, ¬ (['0', 'x'] <+: t) := by
  intro n
  induction n with
  | zero =>
    intro bs h ts hts t ht
    have : bs = [] := List.length_eq_zero.mp (by omega)
    subst this
    rw [decodeTokens_nil] at hts
    rw [← Except.ok.inj hts] at ht
    simp at ht
  | succ n ih =>
    intro bs hbs ts hts t ht
    match bs with
    | [] =>
      rw [decodeTokens_nil] at hts
      rw [← Except.ok.inj hts] at ht
      simp at ht
    | op :: rest =>
      simp only [List.length_cons] at hbs
      have hdl : ∀ (k len : Nat), ((rest.drop k).drop len).length ≤ n := by
        intro k len
        simp only [List.length_drop]
        omega
      rw [decodeTokens_cons] at hts
      split_ifs at hts with h1 h2 h3 h4 h5 h6 h7 h8 h9 h10 h11
      · obtain ⟨ts0, hts0, rfl⟩ := (exceptMap_ok _ _ _).mp hts
        rcases List.mem_cons.mp ht with rfl | ht2
        · exact noPre_cons '<' _ (by decide)
        · exact ih (rest.drop op) (by simp only [List.length_drop]; omega) ts0 hts0 t ht2
      · obtain ⟨ts0, hts0, rfl⟩ := (exceptMap_ok _ _ _).mp hts
        rcases List.mem_cons.mp ht with rfl | ht2
        · exact noPre_cons '<' _ (by decide)
        · exact ih _ (hdl 1 _) ts0 hts0 t ht2
      · obtain ⟨ts0, hts0, rfl⟩ := (exceptMap_ok _ _ _).mp hts
        rcases List.mem_cons.mp ht with rfl | ht2
        · exact noPre_cons '<' _ (by decide)
        · exact ih _ (hdl 2 _) ts0 hts0 t ht2
      · obtain ⟨ts0, hts0, rfl⟩ := (exceptMap_ok _ _ _).mp hts
        rcases List.mem_cons.mp ht with rfl | ht2
        · exact noPre_cons '<' _ (by decide)
        · exact ih _ (hdl 4 _) ts0 hts0 t ht2
      · obtain ⟨ts0, hts0, rfl⟩ := (exceptMap_ok _ _ _).mp hts
        rcases List.mem_cons.mp ht with rfl | ht2
        · exact noPre_short _ (by decide)
        · exact ih rest (by omega) ts0 hts0 t ht2
      · obtain ⟨ts0, hts0, rfl⟩ := (exceptMap_ok _ _ _).mp hts
        rcases List.mem_cons.mp ht with rfl | ht2
        · exact noPre_cons '-' _ (by decide)
        · exact ih rest (by omega) ts0 hts0 t ht2
      · obtain ⟨ts0, hts0, rfl⟩ := (exceptMap_ok _ _ _).mp hts
        rcases List.mem_cons.mp ht with rfl | ht2
        · have hdig : ∀ m, m < 17 → 1 ≤ m → ¬ (['0', 'x'] <+: (toString m).data) := by decide
          exact hdig (op - 0x51 + 1) (by omega) (by omega)
        · exact ih rest (by omega) ts0 hts0 t ht2
      · cases hv : VAL2NAME op with
        | none =>
          rw [hv] at hts
          exact Except.noConfusion hts
        | some name =>
          rw [hv] at hts
          obtain ⟨ts0, hts0, rfl⟩ := (exceptMap_ok _ _ _).mp hts
          rcases List.mem_cons.mp ht with rfl | ht2
          · have htab : ∀ p ∈ opcTable, ¬ (['0', 'x'] <+: p.1.data) := by decide
            obtain ⟨p, hp, hname⟩ := Option.map_eq_some'.mp hv
            rw [← hname]
            exact htab p (List.mem_of_find?_eq_some hp)
          · exact ih rest (by omega) ts0 hts0 t ht2

/-- C6: whenever the decode cursor reaches, at an instruction boundary,
a byte that is not a push form (0x01-0x4b or PUSHDATA1/2/4), not the
zero / negate-one / small-integer opcodes, and absent from the opcode
table, the whole disassembly fails with the unknown-opcode error; and
no token a successful decode ever emits renders a byte as raw
`0x`-prefixed hex. -/
theorem c6_unknown_opcode :
    (∀ (bs rest : Bytes) (b : Nat), DecBoundary bs (b :: rest) → isBadByte b = true →
      decodeTokens bs = .error "Unknown opcode") ∧
    (∀ (bs : Bytes) (ts : List Str), decodeTokens bs = .ok ts →
      ∀ t ∈ ts, ¬ (['0', 'x'] <+: t)) := by
  constructor
  · intro bs rest b hbd hb
    exact decode_boundary_error bs (b :: rest) hbd "Unknown opcode"
      (decode_badByte_head b rest hb)
  · intro bs ts hts t ht
    exact decode_ok_no0x bs.length bs (le_refl _) ts hts t ht

/-- Witness for C6: after decoding the table opcode 0x76 (`OP_DUP`),
the byte 0xba — which is in no decoder branch and absent from the
table — makes the whole decode of [0x76, 0xba] fail, and a successful
decode emits no `0x`-prefixed token. -/
theorem c6_unknown_opcode_witness :
    decodeTokens [0x76, 0xba] = .error "Unknown opcode" ∧
    ¬ (['0', 'x'] <+: "OP_DUP".data) :=
  ⟨c6_unknown_opcode.1 [0x76, 0xba] [] 0xba
     (DecBoundary.named 0x76 "OP_DUP".data [0xba] [0xba] (Or.inr (by decide)) (by decide)
       (DecBoundary.refl [0xba]))
     (by decide),
   c6_unknown_opcode.2 [0x76] ["OP_DUP".data] (by decide) "OP_DUP".data (by decide)⟩

theorem hexDigitVal_lt (c : Char) : hexDigitVal c < 16 := by
  unfold hexDigitVal
  split_ifs with h1 h2 h3 <;> omega

theorem hexPairs_lt256 : ∀ (h : Str), ∀ b ∈ hexPairs h, b < 256
  | [] => by simp [hexPairs]
  | [a] => by simp [hexPairs]
  | a :: b2 :: r => by
    intro b hb
    simp only [hexPairs, List.mem_cons] at hb
    rcases hb with rfl | hb
    · have ha := hexDigitVal_lt a
      have hb2 := hexDigitVal_lt b2
      omega
    · exact hexPairs_lt256 r b hb

theorem hexPairs_length : ∀ (h : Str), (hexPairs h).length = h.length / 2
  | [] => by simp [hexPairs]
  | [a] => by simp [hexPairs]
  | a :: b2 :: r => by
    simp only [hexPairs, List.length_cons, hexPairs_length r]
    omega

theorem hexChar_inv : ∀ n < 16, hexDigitVal (hexChar n) = n := by decide

theorem hexChar_isHexDigit : ∀ n < 16, isHexDigit (hexChar n) = true := by decide

theorem bytesToHexStr_nil : bytesToHexStr [] = [] := rfl

theorem bytesToHexStr_cons (b : Nat) (r : Bytes) :
    bytesToHexStr (b :: r) = hexChar (b / 16) :: hexChar (b % 16) :: bytesToHexStr r := rfl

theorem hexPairs_bytesToHexStr :
    ∀ (data : Bytes), (∀ b ∈ data, b < 256) → hexPairs (bytesToHexStr data) = data := by
  intro data
  induction data with
  | nil => intro _; rfl
  | cons b r ih =>
    intro hlt
    rw [bytesToHexStr_cons]
    show (16 * hexDigitVal (hexChar (b / 16)) + hexDigitVal (hexChar (b % 16))) ::
      hexPairs (bytesToHexStr r) = b :: r
    have hb : b < 256 := hlt b (List.mem_cons_self b r)
    rw [hexChar_inv (b / 16) (by omega), hexChar_inv (b % 16) (by omega),
      ih (fun x hx => hlt x (List.mem_cons_of_mem b hx))]
    congr 1
    omega

theorem bytesToHexStr_length (data : Bytes) :
    (bytesToHexStr data).length = 2 * data.length := by
  induction data with
  | nil => rfl
  | cons b r ih =>
    rw [bytesToHexStr_cons]
    simp only [List.length_cons, ih]
    omega

theorem bytesToHexStr_hex (data : Bytes) (hlt : ∀ b ∈ data, b < 256) :
    ∀ c ∈ bytesToHexStr data, isHexDigit c = true := by
  induction data with
  | nil => simp [bytesToHexStr_nil]
  | cons b r ih =>
    intro c hc
    rw [bytesToHexStr_cons] at hc
    have hb : b < 256 := hlt b (List.mem_cons_self b r)
    rcases List.mem_cons.mp hc with rfl | hc2
    · exact hexChar_isHexDigit (b / 16) (by omega)
    · rcases List.mem_cons.mp hc2 with rfl | hc3
      · exact hexChar_isHexDigit (b % 16) (by omega)
      · exact ih (fun x hx => hlt x (List.mem_cons_of_mem b hx)) c hc3

theorem isHexDigit_facts (c : Char) (h : isHexDigit c = true) :
    isWs c = false ∧ c ≠ '<' ∧ c ≠ '>' := by
  simp only [isHexDigit, Bool.or_eq_true, Bool.and_eq_true, decide_eq_true_eq] at h
  refine ⟨?_, ?_, ?_⟩
  · cases hb : isWs c with
    | false => rfl
    | true =>
      exfalso
      have := (isWs_iff c).mp hb
      omega
  · intro hc
    rw [hc] at h
    simp at h
  · intro hc
    rw [hc] at h
    simp at h

theorem bracketPayload?_pushTok (data : Bytes) (hne : data ≠ [])
    (hlt : ∀ b ∈ data, b < 256) :
    bracketPayload? (pushTokOf data) = some (bytesToHexStr data) := by
  unfold bracketPayload? pushTokOf
  have hmid : ((('<' :: (bytesToHexStr data ++ ['>'])).drop 1).dropLast) = bytesToHexStr data := by
    simp only [List.drop_one, List.tail_cons]
    exact List.dropLast_concat
  have hne2 : bytesToHexStr data ≠ [] := by
    intro h
    apply hne
    have hlen := bytesToHexStr_length data
    rw [h] at hlen
    simp only [List.length_nil] at hlen
    exact List.length_eq_zero.mp (by omega)
  rw [if_pos]
  · rw [hmid]
  · refine ⟨rfl, ?_, ?_, ?_⟩
    · show (('<' :: bytesToHexStr data) ++ ['>']).getLast? = some '>'
      rw [List.getLast?_concat]
    · rw [hmid]
      exact hne2
    · rw [hmid]
      rw [List.all_eq_true]
      intro c hc
      exact bytesToHexStr_hex data hlt c hc

theorem encodeToken_pushTok (data : Bytes) (hne : data ≠ [])
    (hlt : ∀ b ∈ data, b < 256) :
    encodeToken (pushTokOf data) = .ok (pushData data) := by
  simp only [encodeToken, bracketPayload?_pushTok data hne hlt]
  rw [if_neg (by rw [bytesToHexStr_length]; omega)]
  rw [hexPairs_bytesToHexStr data hlt]

theorem pushTokOf_wf (data : Bytes) (hlt : ∀ b ∈ data, b < 256) :
    pushTokOf data ≠ [] ∧ (∀ c ∈ pushTokOf data, isWs c = false) := by
  constructor
  · simp [pushTokOf]
  · intro c hc
    unfold pushTokOf at hc
    rcases List.mem_cons.mp hc with rfl | hc2
    · decide
    · rcases List.mem_append.mp hc2 with hc3 | hc3
      · exact (isHexDigit_facts c (bytesToHexStr_hex data hlt c hc3)).1
      · rcases List.mem_singleton.mp hc3 with rfl
        decide

theorem readLE_one (x : Nat) (r : Bytes) : readLE 1 (x :: r) = x := by
  simp [readLE]

theorem readLE_two (x y : Nat) (r : Bytes) : readLE 2 (x :: y :: r) = x + 256 * y := by
  simp [readLE]

theorem readLE_four (x y z w : Nat) (r : Bytes) :
    readLE 4 (x :: y :: z :: w :: r) = x + 256 * (y + 256 * (z + 256 * w)) := by
  simp [readLE]


/-- Decoding an assembler-emitted data push consumes exactly the push
and emits its bracketed-hex token. -/
theorem decode_push_append (data rest : Bytes) (h1 : 1 ≤ data.length)
    (h2 : data.length < 4294967296) :
    decodeTokens (pushData data ++ rest) =
      (decodeTokens rest).map (fun ts => pushTokOf data :: ts) := by
  unfold pushData pushPrefix
  split_ifs with hc1 hc2 hc3
  · have hb : ([data.length] ++ data) ++ rest = data.length :: (data ++ rest) := by simp
    rw [hb, decodeTokens_cons, if_pos ⟨h1, hc1⟩]
    rw [List.take_left' rfl, List.drop_left' rfl]
    rw [if_neg (by omega)]
  · have hb : ([0x4c, data.length] ++ data) ++ rest =
        0x4c :: data.length :: (data ++ rest) := by simp
    rw [hb, decodeTokens_cons, if_neg (by omega), if_pos rfl]
    have hr : readLE 1 (data.length :: (data ++ rest)) = data.length := readLE_one _ _
    rw [hr]
    have hd : (data.length :: (data ++ rest)).drop 1 = data ++ rest := by simp
    rw [hd, List.take_left' rfl, List.drop_left' rfl]
    rw [if_neg (by omega)]
  · have hb : ([0x4d, data.length % 256, data.length / 256 % 256] ++ data) ++ rest =
        0x4d :: data.length % 256 :: data.length / 256 % 256 :: (data ++ rest) := by simp
    rw [hb, decodeTokens_cons, if_neg (by omega), if_neg (by omega), if_pos rfl]
    have hr : readLE 2 (data.length % 256 :: data.length / 256 % 256 :: (data ++ rest)) =
        data.length := by
      rw [readLE_two]
      omega
    rw [hr]
    have hd : (data.length % 256 :: data.length / 256 % 256 :: (data ++ rest)).drop 2 =
        data ++ rest := by simp
    rw [hd, List.take_left' rfl, List.drop_left' rfl]
    rw [if_neg (by omega)]
  · have hb : ([0x4e, data.length % 256, data.length / 256 % 256,
        data.length / 65536 % 256, data.length / 16777216 % 256] ++ data) ++ rest =
        0x4e :: data.length % 256 :: data.length / 256 % 256 ::
          data.length / 65536 % 256 :: data.length / 16777216 % 256 ::
          (data ++ rest) := by simp
    rw [hb, decodeTokens_cons, if_neg (by omega), if_neg (by omega), if_neg (by omega),
      if_pos rfl]
    have hr : readLE 4 (data.length % 256 :: data.length / 256 % 256 ::
        data.length / 65536 % 256 :: data.length / 16777216 % 256 :: (data ++ rest)) =
        data.length := by
      rw [readLE_four]
      omega
    rw [hr]
    have hd : (data.length % 256 :: data.length / 256 % 256 ::
        data.length / 65536 % 256 :: data.length / 16777216 % 256 :: (data ++ rest)).drop 4 =
        data ++ rest := by simp
    rw [hd, List.take_left' rfl, List.drop_left' rfl]
    rw [if_neg (by omega)]

theorem decode_zero_append (rest : Bytes) :
    decodeTokens (0x00 :: rest) = (decodeTokens rest).map (fun ts => ['0'] :: ts) := by
  rw [decodeTokens_cons, if_neg (by omega), if_neg (by omega), if_neg (by omega),
    if_neg (by omega), if_pos rfl]

theorem decode_negone_append (rest : Bytes) :
    decodeTokens (0x4f :: rest) = (decodeTokens rest).map (fun ts => ['-', '1'] :: ts) := by
  rw [decodeTokens_cons, if_neg (by omega), if_neg (by omega), if_neg (by omega),
    if_neg (by omega), if_neg (by omega), if_pos rfl]

theorem decode_small_append (op : Nat) (rest : Bytes) (h1 : 0x51 ≤ op) (h2 : op ≤ 0x60) :
    decodeTokens (op :: rest) =
      (decodeTokens rest).map (fun ts => (toString (op - 0x51 + 1)).data :: ts) := by
  rw [decodeTokens_cons, if_neg (by omega), if_neg (by omega), if_neg (by omega),
    if_neg (by omega), if_neg (by omega), if_neg (by omega), if_pos ⟨h1, h2⟩]

theorem decode_named_append (op : Nat) (name : Str) (rest : Bytes)
    (hop : op = 0x50 ∨ 0x61 ≤ op) (hname : VAL2NAME op = some name) :
    decodeTokens (op :: rest) = (decodeTokens rest).map (fun ts => name :: ts) := by
  rw [decodeTokens_cons, if_neg (by omega), if_neg (by omega), if_neg (by omega),
    if_neg (by omega), if_neg (by omega), if_neg (by omega), if_neg (by omega), hname]


theorem bracketPayload?_some (t h : Str) (hb : bracketPayload? t = some h) :
    h = (t.drop 1).dropLast ∧ h ≠ [] ∧ (∀ c ∈ h, isHexDigit c = true) := by
  unfold bracketPayload? at hb
  split_ifs at hb with hcond
  obtain ⟨hc1, hc2, hc3, hc4⟩ := hcond
  rcases Option.some.inj hb with rfl
  exact ⟨rfl, hc3, fun c hc => (List.all_eq_true.mp hc4) c hc⟩

theorem smallIntTok_le (t : Str) (h : smallIntTok t = true) : decVal t ≤ 16 := by
  rcases t with - | ⟨c, t2⟩
  · simp [smallIntTok] at h
  rcases t2 with - | ⟨d, t3⟩
  · simp only [smallIntTok, Bool.and_eq_true, decide_eq_true_eq] at h
    unfold decVal
    simp only [List.foldl_cons, List.foldl_nil]
    omega
  rcases t3 with - | ⟨e, t4⟩
  · simp only [smallIntTok, Bool.and_eq_true, decide_eq_true_eq] at h
    obtain ⟨hc, hd⟩ := h
    subst hc
    unfold decVal
    simp only [List.foldl_cons, List.foldl_nil]
    have h1 : ('1' : Char).toNat = 49 := by decide
    rw [h1]
    omega
  · simp [smallIntTok] at h

theorem encodeToken_roundtrip (t : Str) (b : Bytes) (henc : encodeToken t = .ok b)
    (hlen : t.length < 4294967296)
    (hnpd : t ≠ "OP_PUSHDATA1".data ∧ t ≠ "OP_PUSHDATA2".data ∧ t ≠ "OP_PUSHDATA4".data)
    (rest : Bytes) :
    ∃ t', decodeTokens (b ++ rest) = (decodeTokens rest).map (fun ts => t' :: ts) ∧
      encodeToken t' = .ok b ∧ t' ≠ [] ∧ (∀ c ∈ t', isWs c = false) := by
  have hdig_enc : ∀ n < 17, 1 ≤ n → encodeToken (toString n).data = .ok [0x51 + (n - 1)] := by
    decide
  have hdig_wf : ∀ n < 17, 1 ≤ n →
      (toString n).data ≠ [] ∧ ∀ c ∈ (toString n).data, isWs c = false := by decide
  have htab_enc : ∀ q ∈ opcTable, encodeToken q.1.data = .ok [q.2] := by decide
  have htab_wf : ∀ q ∈ opcTable, q.1.data ≠ [] ∧ ∀ c ∈ q.1.data, isWs c = false := by decide
  cases hbp : bracketPayload? t with
  | some h =>
    simp only [encodeToken, hbp] at henc
    split_ifs at henc with hodd
    have hb2 : b = pushData (hexPairs h) := (Except.ok.inj henc).symm
    subst hb2
    obtain ⟨hh, hne, hhex⟩ := bracketPayload?_some t h hbp
    have hlt : ∀ x ∈ hexPairs h, x < 256 := hexPairs_lt256 h
    have hne' : h.length ≠ 0 := fun hz => hne (List.length_eq_zero.mp hz)
    have hdne : hexPairs h ≠ [] := by
      intro hd
      have hl := hexPairs_length h
      rw [hd] at hl
      simp only [List.length_nil] at hl
      omega
    have hdlen : (hexPairs h).length < 4294967296 := by
      rw [hexPairs_length]
      have hle : h.length ≤ t.length := by
        rw [hh]
        simp only [List.length_dropLast, List.length_drop]
        omega
      omega
    refine ⟨pushTokOf (hexPairs h),
      decode_push_append (hexPairs h) rest (by
        have hl := hexPairs_length h
        have : (hexPairs h).length ≠ 0 := fun hz => hdne (List.length_eq_zero.mp hz)
        omega) hdlen,
      encodeToken_pushTok (hexPairs h) hdne hlt,
      (pushTokOf_wf (hexPairs h) hlt).1, (pushTokOf_wf (hexPairs h) hlt).2⟩
  | none =>
    simp only [encodeToken, hbp] at henc
    split_ifs at henc with h_1 h_2 h_3 h_4 h_5 h_6
    · have hb2 : b = [0x4f] := (Except.ok.inj henc).symm
      subst hb2
      exact ⟨['-', '1'], decode_negone_append rest, by decide, by decide, by decide⟩
    · have hb2 : b = [0x00] := (Except.ok.inj henc).symm
      subst hb2
      exact ⟨['0'], decode_zero_append rest, by decide, by decide, by decide⟩
    · have hb2 : b = [0x51 + (decVal t - 1)] := (Except.ok.inj henc).symm
      subst hb2
      have hle : decVal t ≤ 16 := smallIntTok_le t h_2
      have hge : 1 ≤ decVal t := by omega
      have harith : 0x51 + (decVal t - 1) - 0x51 + 1 = decVal t := by omega
      refine ⟨(toString (decVal t)).data, ?_, ?_, (hdig_wf (decVal t) (by omega) hge).1,
        (hdig_wf (decVal t) (by omega) hge).2⟩
      · rw [List.singleton_append,
          decode_small_append (0x51 + (decVal t - 1)) rest (by omega) (by omega), harith]
      · exact hdig_enc (decVal t) (by omega) hge
    · match hlk : lookupOPC t with
      | none =>
        simp only [hlk] at henc
        exact Except.noConfusion henc
      | some code =>
        simp only [hlk] at henc
        have hb2 : b = [code] := (Except.ok.inj henc).symm
        subst hb2
        obtain ⟨p, hfind, hp2⟩ := Option.map_eq_some'.mp hlk
        have hpmem : p ∈ opcTable := List.mem_of_find?_eq_some hfind
        have hpt : p.1.data = t := by
          have := List.find?_some hfind
          simpa using this
        have hnot_pd : code ≠ 76 ∧ code ≠ 77 ∧ code ≠ 78 := by
          have htab_pd : ∀ q ∈ opcTable,
              q.1 = "OP_PUSHDATA1" ∨ q.1 = "OP_PUSHDATA2" ∨ q.1 = "OP_PUSHDATA4" ∨
              (q.2 ≠ 76 ∧ q.2 ≠ 77 ∧ q.2 ≠ 78) := by decide
          rcases htab_pd p hpmem with hq | hq | hq | hq
          · exact absurd (by rw [← hpt, hq]) hnpd.1
          · exact absurd (by rw [← hpt, hq]) hnpd.2.1
          · exact absurd (by rw [← hpt, hq]) hnpd.2.2
          · rw [← hp2]
            exact hq
        have hval : ∀ hop : code = 0x50 ∨ 0x61 ≤ code,
            ∃ q, q ∈ opcTable ∧ q.2 = code ∧ VAL2NAME code = some q.1.data := by
          intro _
          have hsome : (opcTable.find? (fun r => r.2 = code)).isSome := by
            rw [List.find?_isSome]
            exact ⟨p, hpmem, by simp [hp2]⟩
          obtain ⟨q, hq⟩ := Option.isSome_iff_exists.mp hsome
          refine ⟨q, List.mem_of_find?_eq_some hq, ?_, by unfold VAL2NAME; rw [hq]; rfl⟩
          have := List.find?_some hq
          simpa using this
        have htab_class : ∀ q ∈ opcTable,
            q.2 = 0 ∨ q.2 = 76 ∨ q.2 = 77 ∨ q.2 = 78 ∨ q.2 = 79 ∨ q.2 = 80 ∨
            (81 ≤ q.2 ∧ q.2 ≤ 96) ∨ 97 ≤ q.2 := by decide
        have hclass := htab_class p hpmem
        rw [hp2] at hclass
        rcases hclass with hc | hc | hc | hc | hc | hc | hc | hc
        · subst hc
          exact ⟨['0'], decode_zero_append rest, by decide, by decide, by decide⟩
        · exact absurd hc hnot_pd.1
        · exact absurd hc hnot_pd.2.1
        · exact absurd hc hnot_pd.2.2
        · subst hc
          exact ⟨['-', '1'], decode_negone_append rest, by decide, by decide, by decide⟩
        · obtain ⟨q, hqmem, hq2, hq1⟩ := hval (Or.inl hc)
          refine ⟨q.1.data, ?_, ?_, (htab_wf q hqmem).1, (htab_wf q hqmem).2⟩
          · rw [List.singleton_append, decode_named_append code q.1.data rest (Or.inl hc) hq1]
          · rw [htab_enc q hqmem, hq2]
        · obtain ⟨hc1, hc2⟩ := hc
          refine ⟨(toString (code - 0x51 + 1)).data, ?_, ?_,
            (hdig_wf (code - 0x51 + 1) (by omega) (by omega)).1,
            (hdig_wf (code - 0x51 + 1) (by omega) (by omega)).2⟩
          · rw [List.singleton_append, decode_small_append code rest hc1 hc2]
          · rw [hdig_enc (code - 0x51 + 1) (by omega) (by omega)]
            congr 2
            omega
        · obtain ⟨q, hqmem, hq2, hq1⟩ := hval (Or.inr hc)
          refine ⟨q.1.data, ?_, ?_, (htab_wf q hqmem).1, (htab_wf q hqmem).2⟩
          · rw [List.singleton_append, decode_named_append code q.1.data rest (Or.inr hc) hq1]
          · rw [htab_enc q hqmem, hq2]
    · have hb2 : b = pushData (hexPairs t) := (Except.ok.inj henc).symm
      subst hb2
      have hlt : ∀ x ∈ hexPairs t, x < 256 := hexPairs_lt256 t
      by_cases hemp : hexPairs t = []
      · rw [hemp]
        exact ⟨['0'], decode_zero_append rest, by decide, by decide, by decide⟩
      · have hdlen : (hexPairs t).length < 4294967296 := by
          rw [hexPairs_length]
          omega
        refine ⟨pushTokOf (hexPairs t),
          decode_push_append (hexPairs t) rest ?_ hdlen,
          encodeToken_pushTok (hexPairs t) hemp hlt,
          (pushTokOf_wf (hexPairs t) hlt).1, (pushTokOf_wf (hexPairs t) hlt).2⟩
        have : (hexPairs t).length ≠ 0 := fun hz => hemp (List.length_eq_zero.mp hz)
        omega

theorem tokens_joinNl :
    ∀ (ts : List Str), (∀ t ∈ ts, t ≠ [] ∧ ∀ c ∈ t, isWs c = false) →
      tokens (joinNl ts) = ts := by
  intro ts
  induction ts with
  | nil => intro _; rfl
  | cons t ts2 ih =>
    intro hwf
    match ts2 with
    | [] =>
      show tokens t = [t]
      exact tokens_single t (hwf t (List.mem_cons_self t [])).1
        (hwf t (List.mem_cons_self t [])).2
    | t2 :: ts3 =>
      show tokens (t ++ '\n' :: joinNl (t2 :: ts3)) = t :: t2 :: ts3
      rw [tokens_append_mid t.length t (le_refl _) '\n' (joinNl (t2 :: ts3)) (by decide)]
      rw [tokens_single t (hwf t (List.mem_cons_self t _)).1 (hwf t (List.mem_cons_self t _)).2]
      rw [ih (fun x hx => hwf x (List.mem_cons_of_mem t hx))]
      rfl

/-- Concatenated per-token encodings decode back to a token list that
re-encodes to the same pieces. -/
theorem decode_encodeAll :
    ∀ (ts : List Str) (pieces : List Bytes), encodeAll ts = .ok pieces →
      (∀ t ∈ ts, t.length < 4294967296) →
      (∀ t ∈ ts, t ≠ "OP_PUSHDATA1".data ∧ t ≠ "OP_PUSHDATA2".data ∧
        t ≠ "OP_PUSHDATA4".data) →
      ∃ ts', decodeTokens pieces.flatten = .ok ts' ∧ encodeAll ts' = .ok pieces ∧
        ∀ t' ∈ ts', t' ≠ [] ∧ (∀ c ∈ t', isWs c = false) := by
  intro ts
  induction ts with
  | nil =>
    intro pieces henc _ _
    have hp : pieces = [] := (Except.ok.inj henc).symm
    exact ⟨[], by rw [hp]; rfl, by rw [hp]; rfl, by simp⟩
  | cons t ts2 ih =>
    intro pieces henc hlen hnpd
    unfold encodeAll at henc
    match het : encodeToken t, hea : encodeAll ts2 with
    | .error e, _ => rw [het] at henc; exact Except.noConfusion henc
    | .ok b, .error e => rw [het, hea] at henc; exact Except.noConfusion henc
    | .ok b, .ok ps =>
      rw [het, hea] at henc
      have hp : pieces = b :: ps := (Except.ok.inj henc).symm
      subst hp
      obtain ⟨ts'', hdec2, henc2, hwf2⟩ := ih ps hea
        (fun x hx => hlen x (List.mem_cons_of_mem t hx))
        (fun x hx => hnpd x (List.mem_cons_of_mem t hx))
      obtain ⟨t', hdec1, henc1, hne1, hws1⟩ := encodeToken_roundtrip t b het
        (hlen t (List.mem_cons_self t ts2)) (hnpd t (List.mem_cons_self t ts2))
        ps.flatten
      refine ⟨t' :: ts'', ?_, ?_, ?_⟩
      · show decodeTokens (b ++ ps.flatten) = .ok (t' :: ts'')
        rw [hdec1, hdec2]
        rfl
      · unfold encodeAll
        rw [henc1, henc2]
      · intro x hx
        rcases List.mem_cons.mp hx with rfl | hx2
        · exact ⟨hne1, hws1⟩
        · exact hwf2 x hx2

/-- C2 counterexample: `OP_PUSHDATA1` is an assemblable mnemonic whose
output bytecode `[0x4c]` is reinterpreted by the disassembler as a
(zero-length, phantom-read) push prefix, producing the token `<>` that
the assembler rejects — so the hex/ASM round trip fails on this
assembler output. -/
theorem c2_counterexample :
    asmToBytes "OP_PUSHDATA1".data = .ok [0x4c] ∧
    (bytesToAsm [0x4c]).bind asmToBytes = .error "Unrecognized token: <>" ∧
    (bytesToAsm [0x4c]).bind asmToBytes ≠ .ok [0x4c] :=
  ⟨by decide, by decide, by decide⟩

/-- C2 amended: for every byte sequence that is the Assembler's output
for an ASM text (of JavaScript-representable length) containing none of
the bare PUSHDATA mnemonics `OP_PUSHDATA1/2/4`, disassembling and
reassembling reproduces the bytes exactly. -/
theorem c2_amended_roundtrip :
    ∀ (asm : Str) (B : Bytes), asm.length < 4294967296 →
      (∀ t ∈ tokens asm, t ≠ "OP_PUSHDATA1".data ∧ t ≠ "OP_PUSHDATA2".data ∧
        t ≠ "OP_PUSHDATA4".data) →
      asmToBytes asm = .ok B →
      ∃ s, bytesToAsm B = .ok s ∧ asmToBytes s = .ok B := by
  intro asm B hlen hnpd henc
  unfold asmToBytes at henc
  obtain ⟨pieces, hpieces, hB⟩ := (exceptMap_ok _ _ _).mp henc
  subst hB
  have htoklen : ∀ t ∈ tokens asm, t.length < 4294967296 := by
    intro t ht
    have hsub := (tokens_mem asm.length asm (le_refl _) t ht).2.2
    have := hsub.length_le
    omega
  obtain ⟨ts', hdec, henc2, hwf⟩ := decode_encodeAll (tokens asm) pieces hpieces htoklen hnpd
  refine ⟨joinNl ts', ?_, ?_⟩
  · unfold bytesToAsm
    rw [hdec]
    rfl
  · unfold asmToBytes
    rw [tokens_joinNl ts' hwf, henc2]
    rfl

/-- Witness for the amended C2: the P2PKH-style program
`OP_DUP <aabb> 2` round-trips through disassembly. -/
theorem c2_amended_roundtrip_witness :
    ∃ s, bytesToAsm [0x76, 0x02, 0xaa, 0xbb, 0x52] = .ok s ∧
      asmToBytes s = .ok [0x76, 0x02, 0xaa, 0xbb, 0x52] :=
  c2_amended_roundtrip "OP_DUP <aabb> 2".data [0x76, 0x02, 0xaa, 0xbb, 0x52]
    (by decide) (by decide) (by decide)

theorem termAdvance_plain {t : Str} (h : looksBracketed t = false) : termAdvance t = 1 := by
  simp [termAdvance, h]

theorem termAdvance_brk {t : Str} (h : looksBracketed t = true) :
    termAdvance t = tierAdd (((t.length : ℚ) - 2) / 2) + 1 := by
  simp [termAdvance, h]

theorem looksBracketed_length {t : Str} (h : looksBracketed t = true) : 2 ≤ t.length := by
  simp only [looksBracketed, Bool.and_eq_true, decide_eq_true_eq] at h
  match t with
  | [] => simp at h
  | [c] =>
    exfalso
    obtain ⟨h1, h2⟩ := h
    simp only [List.head?_cons, Option.some.injEq] at h1
    simp only [List.getLast?_singleton, Option.some.injEq] at h2
    rw [h1] at h2
    exact absurd h2 (by decide)
  | c :: d :: r => simp

theorem tierAdd_nonneg {l : ℚ} (h : 0 ≤ l) : 0 ≤ tierAdd l := by
  unfold tierAdd
  split_ifs with h1 h2 h3 <;> linarith

theorem termAdvance_ge_one (t : Str) : 1 ≤ termAdvance t := by
  by_cases h : looksBracketed t = true
  · rw [termAdvance_brk h]
    have h2 := looksBracketed_length h
    have hl : (0 : ℚ) ≤ ((t.length : ℚ) - 2) / 2 := by
      have : (2 : ℚ) ≤ (t.length : ℚ) := by exact_mod_cast h2
      linarith
    have := tierAdd_nonneg hl
    linarith
  · rw [termAdvance_plain (by simpa using h)]

theorem scanTerms_eq : ∀ (ts : List Str) (cur : ℚ),
    scanTerms ts cur = cur + (ts.map termAdvance).sum := by
  intro ts
  induction ts with
  | nil => intro cur; simp [scanTerms]
  | cons t ts ih =>
    intro cur
    show scanTerms ts (cur + termAdvance t) = _
    rw [ih]
    simp only [List.map_cons, List.sum_cons]
    ring

theorem pcMapGo_fst : ∀ (ts : List Str) (i : Nat) (cur : ℚ),
    (pcMapGo ts i cur).1 =
      (List.range ts.length).map
        (fun j => (cur + (((ts.take j).map termAdvance).sum), i + j)) := by
  intro ts
  induction ts with
  | nil => intro i cur; rfl
  | cons t ts ih =>
    intro i cur
    show (cur, i) :: (pcMapGo ts (i + 1) (cur + termAdvance t)).1 = _
    rw [ih]
    simp only [List.length_cons, List.range_succ_eq_map, List.map_cons, List.map_map]
    congr 1
    · simp
    · apply List.map_congr_left
      intro j hj
      simp only [Function.comp, Nat.succ_eq_add_one, List.take_succ_cons, List.map_cons,
        List.sum_cons, Prod.mk.injEq]
      constructor
      · ring
      · omega

theorem pcMapGo_snd : ∀ (ts : List Str) (i : Nat) (cur : ℚ),
    (pcMapGo ts i cur).2 = cur + (ts.map termAdvance).sum := by
  intro ts
  induction ts with
  | nil => intro i cur; simp [pcMapGo]
  | cons t ts ih =>
    intro i cur
    show (pcMapGo ts (i + 1) (cur + termAdvance t)).2 = _
    rw [ih]
    simp only [List.map_cons, List.sum_cons]
    ring

theorem computePcWordMap_eq (asm : Str) (hne : tokens asm ≠ []) :
    computePcWordMap asm =
      (List.range (tokens asm).length).map
        (fun j => ((((tokens asm).take j).map termAdvance).sum, j)) ++
      [(((tokens asm).map termAdvance).sum, (tokens asm).length - 1)] := by
  unfold computePcWordMap
  have hjs : jsTrimSplit asm = tokens asm := by
    unfold jsTrimSplit
    match h : tokens asm with
    | [] => exact absurd h hne
    | t :: ts => rfl
  rw [hjs]
  show (pcMapGo (tokens asm) 0 0).1 ++
      [((pcMapGo (tokens asm) 0 0).2, (tokens asm).length - 1)] = _
  rw [pcMapGo_fst, pcMapGo_snd]
  congr 1
  · apply List.map_congr_left
    intro j hj
    simp
  · simp

theorem lineArrayGo_eq : ∀ (ls : List Str) (cur : ℚ),
    lineArrayGo ls cur =
      (List.range ls.length).map
        (fun k => cur + ((ls.take k).map (fun line => ((tokens line).map termAdvance).sum)).sum) := by
  intro ls
  induction ls with
  | nil => intro cur; rfl
  | cons line ls ih =>
    intro cur
    show cur :: lineArrayGo ls (scanTerms (tokens line) cur) = _
    rw [ih, scanTerms_eq]
    simp only [List.length_cons, List.range_succ_eq_map, List.map_cons, List.map_map]
    congr 1
    · simp
    · apply List.map_congr_left
      intro k hk
      simp only [Function.comp]
      simp only [Nat.succ_eq_add_one, List.take_succ_cons, List.map_cons, List.sum_cons]
      ring

theorem computeLineArray_eq (asm : Str) :
    computeLineArray asm =
      (List.range (splitNl (trimStr asm)).length).map
        (fun k => (((splitNl (trimStr asm)).take k).map
          (fun line => ((tokens line).map termAdvance).sum)).sum) := by
  unfold computeLineArray
  rw [lineArrayGo_eq]
  apply List.map_congr_left
  intro k hk
  simp

/-- Prefix sums over the flattened token stream agree with sums of
per-line sums. -/
theorem take_flatten_sum :
    ∀ (lts : List (List Str)) (k : Nat),
      ((lts.take k).map (fun line => (line.map termAdvance).sum)).sum =
        ((lts.flatten.take (((lts.take k).map List.length).sum)).map termAdvance).sum := by
  intro lts
  induction lts with
  | nil => intro k; simp
  | cons line lts ih =>
    intro k
    match k with
    | 0 => simp
    | k + 1 =>
      simp only [List.take_succ_cons, List.map_cons, List.sum_cons, List.flatten_cons]
      rw [List.take_append]
      simp only [List.map_append, List.sum_append]
      rw [ih k]

/-- Prefix sums of token advances are monotone in the prefix length. -/
theorem off_mono (ts : List Str) (j j' : Nat) (h : j ≤ j') :
    (((ts.take j).map termAdvance).sum : ℚ) ≤ ((ts.take j').map termAdvance).sum := by
  have hsub : (ts.take j).Sublist (ts.take j') :=
    (List.take_prefix_take_left ts h).sublist
  have hsub2 : ((ts.take j).map termAdvance).Sublist ((ts.take j').map termAdvance) :=
    hsub.map termAdvance
  apply hsub2.sum_le_sum
  intro a ha
  obtain ⟨t, _, rfl⟩ := List.mem_map.mp ha
  have := termAdvance_ge_one t
  linarith

/-- C8: for every ASM source text and every source line that has at
least one token, the byte offset recorded for that line in the line
table equals the smallest key of the byte-offset-to-token-index map
whose mapped token index is the index of the line's first token in the
flattened token stream. -/
theorem c8_offset_consistency :
    ∀ (asm : Str) (k : Nat) (hk : k < (lineTokens asm).length),
      (lineTokens asm).get ⟨k, hk⟩ ≠ [] →
      ∃ hk2 : k < (computeLineArray asm).length,
        minKeyFor (computePcWordMap asm) (flatIdx asm k) =
          some ((computeLineArray asm).get ⟨k, hk2⟩) := by
  intro asm k hk hne
  have hflat : tokens asm = (lineTokens asm).flatten := by
    rw [← tokens_trim asm]
    rw [tokens_flatten_splitNl (trimStr asm).length (trimStr asm) (le_refl _)]
    rfl
  have hTne : tokens asm ≠ [] := by
    intro hnil
    rw [hflat] at hnil
    exact hne (List.flatten_eq_nil_iff.mp hnil _ (List.get_mem (lineTokens asm) k hk))
  have hkl : k < (splitNl (trimStr asm)).length := by
    have : (lineTokens asm).length = (splitNl (trimStr asm)).length := by
      unfold lineTokens
      simp
    omega
  have hlen2 : (computeLineArray asm).length = (lineTokens asm).length := by
    rw [computeLineArray_eq]
    unfold lineTokens
    simp
  refine ⟨by omega, ?_⟩
  have hgetline : ∀ hk2 : k < (computeLineArray asm).length,
      (computeLineArray asm).get ⟨k, hk2⟩ =
        (((tokens asm).take (flatIdx asm k)).map termAdvance).sum := by
    intro hk2
    rw [List.get_eq_getElem]
    have hre : (computeLineArray asm)[k] =
        (((splitNl (trimStr asm)).take k).map
          (fun line => ((tokens line).map termAdvance).sum)).sum := by
      have h1 := computeLineArray_eq asm
      rw [List.getElem_of_eq h1, List.getElem_map, List.getElem_range]
    rw [hre]
    have h2 : ((splitNl (trimStr asm)).take k).map
        (fun line => ((tokens line).map termAdvance).sum) =
        ((lineTokens asm).take k).map (fun line => (line.map termAdvance).sum) := by
      unfold lineTokens
      rw [← List.map_take, List.map_map]
      rfl
    rw [h2, take_flatten_sum, hflat]
    rfl
  rw [hgetline]
  have hiT : flatIdx asm k < (tokens asm).length := by
    have hlenf : (tokens asm).length = ((lineTokens asm).map List.length).sum := by
      rw [hflat, List.length_flatten]
    have hdrop : (lineTokens asm).drop k =
        (lineTokens asm).get ⟨k, hk⟩ :: (lineTokens asm).drop (k + 1) := by
      rw [List.get_eq_getElem]
      exact List.drop_eq_getElem_cons hk
    have hsplit : (lineTokens asm).map List.length =
        ((lineTokens asm).take k).map List.length ++
        ((lineTokens asm).drop k).map List.length := by
      rw [← List.map_append, List.take_append_drop]
    have hge1 : 1 ≤ ((lineTokens asm).get ⟨k, hk⟩).length := by
      have : ((lineTokens asm).get ⟨k, hk⟩).length ≠ 0 :=
        fun hz => hne (List.length_eq_zero.mp hz)
      omega
    rw [hlenf, hsplit, List.sum_append, hdrop]
    simp only [List.map_cons, List.sum_cons]
    unfold flatIdx
    omega
  have hanti : Std.Antisymm (fun x1 x2 : ℚ => x1 ≤ x2) :=
    ⟨fun h1 h2 => le_antisymm h1 h2⟩
  unfold minKeyFor
  refine (@List.min?_eq_some_iff ℚ _ _ _ hanti
    (fun a => le_refl a) (fun a b => min_choice a b) (fun a b c => le_min_iff) _).mpr
    ⟨?_, ?_⟩
  · apply List.mem_map.mpr
    refine ⟨((((tokens asm).take (flatIdx asm k)).map termAdvance).sum, flatIdx asm k),
      ?_, rfl⟩
    apply List.mem_filter.mpr
    constructor
    · rw [computePcWordMap_eq asm hTne]
      apply List.mem_append_left
      apply List.mem_map.mpr
      exact ⟨flatIdx asm k, List.mem_range.mpr hiT, rfl⟩
    · simp
  · intro b hb
    obtain ⟨p, hp, rfl⟩ := List.mem_map.mp hb
    have hp2 := List.mem_filter.mp hp
    have hpi : p.2 = flatIdx asm k := by simpa using hp2.2
    have hpm := hp2.1
    rw [computePcWordMap_eq asm hTne] at hpm
    rcases List.mem_append.mp hpm with hpm | hpm
    · obtain ⟨j, hj, hpj⟩ := List.mem_map.mp hpm
      rw [← hpj]
      have : j = flatIdx asm k := by
        have := congrArg Prod.snd hpj
        simp at this
        omega
      rw [this]
    · rcases List.mem_singleton.mp hpm with rfl
      simp only []
      have : ((tokens asm).map termAdvance).sum =
          (((tokens asm).take (tokens asm).length).map termAdvance).sum := by
        rw [List.take_length]
      rw [this]
      exact off_mono (tokens asm) (flatIdx asm k) (tokens asm).length (by omega)

/-- Witness for C8: line 2 of a two-line program (line index 1,
first-token flat index 2). -/
theorem c8_offset_consistency_witness :
    ∃ hk2 : 1 < (computeLineArray "OP_DUP <aabb>\n3 OP_ADD".data).length,
      minKeyFor (computePcWordMap "OP_DUP <aabb>\n3 OP_ADD".data)
          (flatIdx "OP_DUP <aabb>\n3 OP_ADD".data 1) =
        some ((computeLineArray "OP_DUP <aabb>\n3 OP_ADD".data).get ⟨1, hk2⟩) :=
  c8_offset_consistency "OP_DUP <aabb>\n3 OP_ADD".data 1 (by decide) (by decide)

theorem pushPrefix_length (n : Nat) :
    (pushPrefix n).length =
      if n ≤ 75 then 1 else if n ≤ 255 then 2 else if n ≤ 65535 then 3 else 5 := by
  unfold pushPrefix
  split_ifs <;> rfl

theorem bracketPayload?_head (t h : Str) (hb : bracketPayload? t = some h) :
    looksBracketed t = true ∧ t.length = h.length + 2 := by
  unfold bracketPayload? at hb
  split_ifs at hb with hcond
  obtain ⟨hc1, hc2, hc3, hc4⟩ := hcond
  rcases Option.some.inj hb with rfl
  have hlb : looksBracketed t = true := by
    unfold looksBracketed
    rw [hc1, hc2]
    rfl
  refine ⟨hlb, ?_⟩
  have h2 := looksBracketed_length hlb
  simp only [List.length_dropLast, List.length_drop]
  omega

theorem smallIntTok_not_bracket (t : Str) (h : smallIntTok t = true) :
    bracketPayload? t = none ∧ looksBracketed t = false := by
  have hhead : ∀ (c : Char) (r : Str), t = c :: r → c ≠ '<' := by
    intro c r ht hc
    subst ht
    subst hc
    rcases r with - | ⟨d, r2⟩
    · simp only [smallIntTok, Bool.and_eq_true, decide_eq_true_eq] at h
      have : ('<' : Char).toNat = 60 := by decide
      omega
    · rcases r2 with - | ⟨e, r3⟩
      · simp only [smallIntTok, Bool.and_eq_true, decide_eq_true_eq] at h
        obtain ⟨h1, h2⟩ := h
        exact absurd h1 (by decide)
      · simp [smallIntTok] at h
  match t with
  | [] => simp [smallIntTok] at h
  | c :: r =>
    have hc := hhead c r rfl
    constructor
    · unfold bracketPayload?
      rw [if_neg]
      intro hcond
      apply hc
      have := hcond.1
      simpa using this
    · unfold looksBracketed
      have : (c :: r).head? = some c := rfl
      rw [this]
      have : (some c = some '<') = False := by
        simp
        exact hc
      simp [this]

theorem opPattern_not_bracket (t : Str) (h : opPattern t = true) :
    bracketPayload? t = none ∧ looksBracketed t = false := by
  unfold opPattern at h
  split at h
  · constructor
    · unfold bracketPayload?
      rw [if_neg]
      intro hcond
      have h1 := hcond.1
      simp at h1
    · simp [looksBracketed]
  · simp at h

/-- For a token that is a well-sized bracketed push, `-1`, a small
integer or a known mnemonic, the encoded byte length equals the offset
advance the mapping engine computes for it. -/
theorem encLen_eq_advance (t : Str) (b : Bytes) (henc : encodeToken t = .ok b)
    (hgood : (∃ h, bracketPayload? t = some h ∧
        (h.length / 2 ≤ 520 ∨ 65536 ≤ h.length / 2)) ∨
      t = ['-', '1'] ∨ smallIntTok t = true ∨ opPattern t = true) :
    (b.length : ℚ) = termAdvance t := by
  by_cases hbrk : ∃ h, bracketPayload? t = some h ∧
      (h.length / 2 ≤ 520 ∨ 65536 ≤ h.length / 2)
  · obtain ⟨h, hbp, hsize⟩ := hbrk
    simp only [encodeToken, hbp] at henc
    split_ifs at henc with hodd
    have hb2 : b = pushData (hexPairs h) := (Except.ok.inj henc).symm
    subst hb2
    obtain ⟨hlb, hlen2⟩ := bracketPayload?_head t h hbp
    rw [termAdvance_brk hlb]
    obtain ⟨L, hL⟩ : ∃ L, h.length = 2 * L := ⟨h.length / 2, by omega⟩
    have hdiv : h.length / 2 = L := by omega
    rw [hdiv] at hsize
    have hql : ((t.length : ℚ) - 2) / 2 = (L : ℚ) := by
      rw [hlen2, hL]
      push_cast
      ring
    rw [hql]
    have hlenp : (hexPairs h).length = L := by rw [hexPairs_length h, hdiv]
    unfold pushData
    rw [List.length_append, hlenp, pushPrefix_length]
    unfold tierAdd
    rcases Nat.lt_or_ge L 76 with hc1 | hc1
    · rw [if_pos (by omega), if_pos (by exact_mod_cast hc1)]
      push_cast
      ring
    · rcases Nat.lt_or_ge L 256 with hc2 | hc2
      · rw [if_neg (by omega), if_pos (by omega),
          if_neg (by intro hlt; exact absurd (by exact_mod_cast hlt) (by omega)),
          if_pos ⟨by exact_mod_cast hc1, by exact_mod_cast hc2⟩]
        push_cast
        ring
      · rcases Nat.lt_or_ge L 521 with hc3 | hc3
        · rw [if_neg (by omega), if_neg (by omega), if_pos (by omega),
            if_neg (by intro hlt; exact absurd (by exact_mod_cast hlt) (by omega)),
            if_neg (by
              intro hand
              exact absurd (by exact_mod_cast hand.2) (by omega)),
            if_pos ⟨by exact_mod_cast hc2, by exact_mod_cast hc3⟩]
          push_cast
          ring
        · have hbig : 65536 ≤ L := by omega
          rw [if_neg (by omega), if_neg (by omega), if_neg (by omega),
            if_neg (by intro hlt; exact absurd (by exact_mod_cast hlt) (by omega)),
            if_neg (by
              intro hand
              exact absurd (by exact_mod_cast hand.2) (by omega)),
            if_neg (by
              intro hand
              exact absurd (by exact_mod_cast hand.2) (by omega))]
          push_cast
          ring
  · have hone : termAdvance t = 1 ∧ ∃ x, b = [x] := by
      have hbpn : bracketPayload? t = none := by
        rcases hgood with hg | rfl | hg | hg
        · exact absurd hg hbrk
        · decide
        · exact (smallIntTok_not_bracket t hg).1
        · exact (opPattern_not_bracket t hg).1
      have hlb : looksBracketed t = false := by
        rcases hgood with hg | rfl | hg | hg
        · exact absurd hg hbrk
        · decide
        · exact (smallIntTok_not_bracket t hg).2
        · exact (opPattern_not_bracket t hg).2
      refine ⟨termAdvance_plain hlb, ?_⟩
      simp only [encodeToken, hbpn] at henc
      split_ifs at henc with h1 h2 h3 h4 h5 h6
      · exact ⟨0x4f, (Except.ok.inj henc).symm⟩
      · exact ⟨0x00, (Except.ok.inj henc).symm⟩
      · exact ⟨0x51 + (decVal t - 1), (Except.ok.inj henc).symm⟩
      · match hlk : lookupOPC t with
        | none =>
          simp only [hlk] at henc
          exact Except.noConfusion henc
        | some code =>
          simp only [hlk] at henc
          exact ⟨code, (Except.ok.inj henc).symm⟩
      · exfalso
        rcases hgood with hg | hg | hg | hg
        · exact hbrk hg
        · exact h1 hg
        · exact h2 hg
        · exact h4 hg
    obtain ⟨hadv, x, hb2⟩ := hone
    rw [hadv, hb2]
    rfl

/-- Prefix sums of the per-token offset advances equal prefix sums of
the encoded piece lengths, for token lists built from well-sized
bracketed pushes, `-1`, small integers and known mnemonics. -/
theorem encLens_sum (ts : List Str) :
    ∀ (pieces : List Bytes), encodeAll ts = .ok pieces →
    (∀ t ∈ ts, (∃ h, bracketPayload? t = some h ∧
        (h.length / 2 ≤ 520 ∨ 65536 ≤ h.length / 2)) ∨
      t = ['-', '1'] ∨ smallIntTok t = true ∨ opPattern t = true) →
    ∀ j, ((ts.take j).map termAdvance).sum =
      (((pieces.take j).flatten.length : Nat) : ℚ) := by
  induction ts with
  | nil =>
    intro pieces henc _ j
    have hp : pieces = [] := (Except.ok.inj henc).symm
    subst hp
    simp
  | cons t ts2 ih =>
    intro pieces henc hgood j
    unfold encodeAll at henc
    match het : encodeToken t, hea : encodeAll ts2 with
    | .error e, _ => rw [het] at henc; exact Except.noConfusion henc
    | .ok b, .error e => rw [het, hea] at henc; exact Except.noConfusion henc
    | .ok b, .ok ps =>
      rw [het, hea] at henc
      have hp : pieces = b :: ps := (Except.ok.inj henc).symm
      subst hp
      cases j with
      | zero => simp
      | succ j2 =>
        simp only [List.take_succ_cons, List.map_cons, List.sum_cons,
          List.flatten_cons, List.length_append]
        rw [ih ps hea (fun x hx => hgood x (List.mem_cons_of_mem t hx)) j2,
          ← encLen_eq_advance t b het (hgood t (List.mem_cons_self t ts2))]
        push_cast
        ring

/-- `encodeAll` produces exactly one byte piece per token. -/
theorem encodeAll_length : ∀ (ts : List Str) (pieces : List Bytes),
    encodeAll ts = .ok pieces → pieces.length = ts.length := by
  intro ts
  induction ts with
  | nil =>
    intro pieces henc
    have hp : pieces = [] := (Except.ok.inj henc).symm
    subst hp
    rfl
  | cons t ts2 ih =>
    intro pieces henc
    unfold encodeAll at henc
    match het : encodeToken t, hea : encodeAll ts2 with
    | .error e, _ => rw [het] at henc; exact Except.noConfusion henc
    | .ok b, .error e => rw [het, hea] at henc; exact Except.noConfusion henc
    | .ok b, .ok ps =>
      rw [het, hea] at henc
      have hp : pieces = b :: ps := (Except.ok.inj henc).symm
      subst hp
      simp [ih ps hea]

/-- C1 counterexample: the ASM text `ff` assembles without error to the
two-byte push `01 ff`, yet the offset map records the final sentinel
offset as 1, not 2: the offset engine counts a bare-hex token as a
single byte while the assembler emits a prefixed data push for it, so
the map keys are not the true starting byte offsets. -/
theorem c1_counterexample :
    asmToBytes ['f', 'f'] = .ok [1, 255] ∧
    computePcWordMap ['f', 'f'] = [(0, 0), (1, 0)] := by
  constructor
  · decide
  · rw [computePcWordMap_eq ['f', 'f'] (by decide)]
    have htok : tokens ['f', 'f'] = [['f', 'f']] := by decide
    have hadv : termAdvance ['f', 'f'] = 1 := termAdvance_plain (by decide)
    rw [htok]
    simp [List.range_succ, hadv]

/-- C1 (amended): for a nonempty token stream whose tokens are
well-sized bracketed pushes (payload at most 520 bytes or at least
65536 bytes), `-1`, small integers or known `OP_*` mnemonics, the ASM
assembles without error, the line table records for each source line
exactly the byte offset at which the encoding of that line's first
token begins in the assembled bytecode, and the keys of the
offset-to-token-index map are exactly the true starting byte offsets
of every token in that bytecode, plus the sentinel at the total byte
length mapping to the last token index. -/
theorem c1_amended_offsets (asm : Str) (pieces : List Bytes)
    (hne : tokens asm ≠ [])
    (henc : encodeAll (tokens asm) = .ok pieces)
    (hgood : ∀ t ∈ tokens asm, (∃ h, bracketPayload? t = some h ∧
        (h.length / 2 ≤ 520 ∨ 65536 ≤ h.length / 2)) ∨
      t = ['-', '1'] ∨ smallIntTok t = true ∨ opPattern t = true) :
    asmToBytes asm = .ok pieces.flatten ∧
    computeLineArray asm =
      (List.range (splitNl (trimStr asm)).length).map
        (fun k => (((pieces.take (flatIdx asm k)).flatten.length : Nat) : ℚ)) ∧
    computePcWordMap asm =
      (List.range (tokens asm).length).map
        (fun j => (((pieces.take j).flatten.length : ℚ), j)) ++
      [((pieces.flatten.length : ℚ), (tokens asm).length - 1)] := by
  have hsum := encLens_sum (tokens asm) pieces henc hgood
  have hlen := encodeAll_length (tokens asm) pieces henc
  have hflat : tokens asm = (lineTokens asm).flatten := by
    rw [← tokens_trim asm]
    rw [tokens_flatten_splitNl (trimStr asm).length (trimStr asm) (le_refl _)]
    rfl
  refine ⟨?_, ?_, ?_⟩
  · unfold asmToBytes
    rw [henc]
    rfl
  · rw [computeLineArray_eq]
    apply List.map_congr_left
    intro k hk
    have h2 : ((splitNl (trimStr asm)).take k).map
        (fun line => ((tokens line).map termAdvance).sum) =
        ((lineTokens asm).take k).map (fun line => (line.map termAdvance).sum) := by
      unfold lineTokens
      rw [← List.map_take, List.map_map]
      rfl
    rw [h2, take_flatten_sum, ← hflat]
    exact hsum (flatIdx asm k)
  · rw [computePcWordMap_eq asm hne]
    congr 1
    · apply List.map_congr_left
      intro j hj
      rw [hsum j]
    · have h := hsum (tokens asm).length
      rw [List.take_of_length_le (le_refl _),
        List.take_of_length_le (le_of_eq hlen)] at h
      rw [h]

/-- C1 witness: the amended theorem applied to the two-line program
`<aa> 0` / `OP_DUP`, whose three tokens encode to the pieces `[01 aa]`,
`[00]`, `[76]`. -/
theorem c1_amended_offsets_witness :
    asmToBytes "<aa> 0\nOP_DUP".data =
      .ok ([[1, 170], [0], [118]] : List Bytes).flatten ∧
    computeLineArray "<aa> 0\nOP_DUP".data =
      (List.range (splitNl (trimStr "<aa> 0\nOP_DUP".data)).length).map
        (fun k => (((([[1, 170], [0], [118]] : List Bytes).take
          (flatIdx "<aa> 0\nOP_DUP".data k)).flatten.length : Nat) : ℚ)) ∧
    computePcWordMap "<aa> 0\nOP_DUP".data =
      (List.range (tokens "<aa> 0\nOP_DUP".data).length).map
        (fun j => (((([[1, 170], [0], [118]] : List Bytes).take j).flatten.length : ℚ), j)) ++
      [(((([[1, 170], [0], [118]] : List Bytes).flatten.length : ℚ)),
        (tokens "<aa> 0\nOP_DUP".data).length - 1)] := by
  refine c1_amended_offsets "<aa> 0\nOP_DUP".data [[1, 170], [0], [118]]
    (by decide) (by decide) ?_
  intro t ht
  have htok : tokens "<aa> 0\nOP_DUP".data =
      [['<', 'a', 'a', '>'], ['0'], ['O', 'P', '_', 'D', 'U', 'P']] := by decide
  rw [htok] at ht
  rcases List.mem_cons.mp ht with rfl | ht
  · exact Or.inl ⟨['a', 'a'], by decide, Or.inl (by decide)⟩
  rcases List.mem_cons.mp ht with rfl | ht
  · exact Or.inr (Or.inr (Or.inl (by decide)))
  rcases List.mem_cons.mp ht with rfl | ht
  · exact Or.inr (Or.inr (Or.inr (by decide)))
  · exact absurd ht (List.not_mem_nil t)
